import Mathlib

/-!
# Word ladder (`graph/word_ladder.go`)

A shallow embedding of the Go package `graph` of go-dsa: the edge predicate
`isDifferentByOneLetter`, the graph construction of `WordLadder` and the
queue-driven search `bfsMinTransformation`, followed by theorems about them.

Modelling conventions.

* A Go `string` is its sequence of bytes, `List Nat` (every byte is `< 256`;
  nothing below depends on that bound). `len(s)` is `s.length`, `s[i]` is the
  byte at index `i` and panics when `i` is out of range.
* `for i := range s` over a string does not visit every byte index: it decodes
  UTF-8 and yields the byte index of the first byte of each successive code
  point, advancing by one byte on an invalid encoding (`rangeIndices`).
* A run-time panic and the exhaustion of the fuel of the search loop are
  explicit results (`GoError`).
* `map[string]*vertex` is an association list with unique keys. A `*vertex`
  is represented by the key under which the vertex is stored: every pointer
  the program creates is obtained as `graph[w]` after the last insertion into
  the map, so a pointer is nil exactly when its key is absent.
* Go `int` counters are natural numbers: they are bounded by the number of
  dequeues of the search, which is at most `len(dic) + 1`.
-/

namespace GoDsa

/-- A Go string: its bytes. -/
abbrev GoString := List Nat

/-- Run-time failures of the embedded program. -/
inductive GoError where
  | indexOutOfRange
  | nilDereference
  | fuelExhausted
  deriving DecidableEq, Repr

/-- Equality of results is decidable, so that closed facts about the program can
be evaluated. -/
instance decEqResult {α : Type} [DecidableEq α] : DecidableEq (Except GoError α)
  | .ok a, .ok b =>
    if h : a = b then isTrue (by rw [h]) else isFalse (fun h1 => h (Except.ok.inj h1))
  | .error e, .error f =>
    if h : e = f then isTrue (by rw [h]) else isFalse (fun h1 => h (Except.error.inj h1))
  | .ok _, .error _ => isFalse (fun h => Except.noConfusion h)
  | .error _, .ok _ => isFalse (fun h => Except.noConfusion h)

/-- Continuation byte test of the UTF-8 decoder (`locb <= b && b <= hicb`). -/
def isCont (b : Nat) : Bool := decide (0x80 ≤ b) && decide (b ≤ 0xBF)

/-- Number of bytes that `for range` consumes for the code point starting at the
head of `s` (Go runtime `decoderune`, with the ASCII fast path of the range loop):
the encoded width of a valid code point, `1` for ASCII and for every invalid or
truncated encoding. -/
def runeWidth : GoString → Nat
  | [] => 1
  | s0 :: rest =>
    if s0 < 0x80 then 1
    else if 0xC0 ≤ s0 ∧ s0 < 0xE0 then
      match rest with
      | s1 :: _ =>
        if isCont s1 ∧ 0x7F < (s0 % 32) * 64 + s1 % 64 then 2 else 1
      | _ => 1
    else if 0xE0 ≤ s0 ∧ s0 < 0xF0 then
      match rest with
      | s1 :: s2 :: _ =>
        let r := (s0 % 16) * 4096 + (s1 % 64) * 64 + s2 % 64
        if isCont s1 ∧ isCont s2 ∧ 0x7FF < r ∧ ¬ (0xD800 ≤ r ∧ r ≤ 0xDFFF) then 3 else 1
      | _ => 1
    else if 0xF0 ≤ s0 ∧ s0 < 0xF8 then
      match rest with
      | s1 :: s2 :: s3 :: _ =>
        let r := (s0 % 8) * 262144 + (s1 % 64) * 4096 + (s2 % 64) * 64 + s3 % 64
        if isCont s1 ∧ isCont s2 ∧ isCont s3 ∧ 0xFFFF < r ∧ r ≤ 0x10FFFF then 4 else 1
      | _ => 1
    else 1

/-- The index values of `for i := range s` from byte offset `k` on, where the
list is `s` without its first `k` bytes and `skip` of its bytes still belong to the
code point met last. At the first byte of a code point the index is produced and
the remaining bytes of the code point are skipped. -/
def rangeFrom : Nat → Nat → GoString → List Nat
  | _, _, [] => []
  | 0, k, b :: rest => k :: rangeFrom (runeWidth (b :: rest) - 1) (k + 1) rest
  | skip + 1, k, _ :: rest => rangeFrom skip (k + 1) rest

/-- The index values of `for i := range s` for a string `s`. -/
def rangeIndices (s : GoString) : List Nat := rangeFrom 0 0 s

/-- Indexing `s[i]`: a panic when `i` is out of range. -/
def byteAt (s : GoString) (i : Nat) : Except GoError Nat :=
  match s[i]? with
  | some b => .ok b
  | none => .error .indexOutOfRange

/-- Body of the loop of `isDifferentByOneLetter`, over the remaining index values. -/
def isDifferentLoop (a b : GoString) : List Nat → Bool → Except GoError Bool
  | [], oneDiff => .ok oneDiff
  | i :: is, oneDiff => do
    let x ← byteAt a i
    let y ← byteAt b i
    if x ≠ y then
      if oneDiff then .ok false
      else isDifferentLoop a b is true
    else isDifferentLoop a b is oneDiff

/-- Go `isDifferentByOneLetter(a, b)`. -/
def isDifferentByOneLetter (a b : GoString) : Except GoError Bool :=
  isDifferentLoop a b (rangeIndices a) false

/-- Go `vertex`; an edge is the key of the vertex it points to. -/
structure vertex where
  word : GoString
  edges : List GoString
  distance : Nat
  deriving DecidableEq, Repr

/-- Go `map[string]*vertex`. -/
abbrev Graph := List (GoString × vertex)

/-- Map lookup `graph[w]`; `none` is the nil pointer. -/
def lookupV : Graph → GoString → Option vertex
  | [], _ => none
  | (k, v) :: rest, w => if k = w then some v else lookupV rest w

/-- Map assignment `graph[w] = v`, also used to write a field through the
pointer stored under `w`. -/
def assign : Graph → GoString → vertex → Graph
  | [], w, v => [(w, v)]
  | (k, x) :: rest, w, v => if k = w then (k, v) :: rest else (k, x) :: assign rest w v

/-- The keys of the map. -/
def keys (g : Graph) : List GoString := g.map Prod.fst

/-- The vertex `&vertex{word: w}` created on lines 19 and 21: no edges, distance
zero. -/
def freshVertex (w : GoString) : vertex := { word := w, edges := [], distance := 0 }

/-- Lines 17-22 of `WordLadder`: a new map, one fresh vertex for `start`, then one
for each word of `dic`, a later one replacing an earlier one under the same key. -/
def makeVertices (start : GoString) (dic : List GoString) : Graph :=
  dic.foldl (fun g w => assign g w (freshVertex w)) (assign [] start (freshVertex start))

/-- Lines 26-28: `graph[w1].edges = append(graph[w1].edges, graph[w2])` when the
predicate holds. -/
def addEdge (g : Graph) (w1 w2 : GoString) : Except GoError Graph := do
  let d ← isDifferentByOneLetter w1 w2
  if d then
    match lookupV g w1 with
    | some v => .ok (assign g w1 { v with edges := v.edges ++ [w2] })
    | none => .error .nilDereference
  else .ok g

/-- Lines 25-29: the inner loop over `dic` for one key `w1`. -/
def addEdgesFor (w1 : GoString) : Graph → List GoString → Except GoError Graph
  | g, [] => .ok g
  | g, w2 :: rest => do
    let g1 ← addEdge g w1 w2
    addEdgesFor w1 g1 rest

/-- Lines 24-30: the outer loop, over the keys in the order `ks`. Go leaves the
iteration order of a map unspecified; each iteration only writes the edge list of
its own key, and the outcome is the same for every order (`addAllEdges_order`). -/
def addAllEdges (dic : List GoString) : Graph → List GoString → Except GoError Graph
  | g, [] => .ok g
  | g, w1 :: ks => do
    let g1 ← addEdgesFor w1 g dic
    addAllEdges dic g1 ks

/-- Lines 17-30 of `WordLadder`: the graph handed to the search. The keys are
visited in the order of their first insertion. -/
def buildGraph (start : GoString) (dic : List GoString) : Except GoError Graph :=
  addAllEdges dic (makeVertices start dic) (keys (makeVertices start dic))

/-- The local variables of `bfsMinTransformation` together with the graph, whose
`distance` fields the search writes. -/
structure bfsState where
  graph : Graph
  min : Nat
  distance : Nat
  seen : List GoString
  queue : List GoString
  deriving DecidableEq, Repr

/-- Lines 47-55: the body of the loop over `tmp.edges` for one edge `v`. -/
def visitEdge (endWord : GoString) (s : bfsState) (v : GoString) : Except GoError bfsState :=
  if v ∈ s.seen then .ok s
  else
    match lookupV s.graph v with
    | none => .error .nilDereference
    | some x =>
      .ok { graph := assign s.graph v { x with distance := s.distance }
            min := if x.word = endWord ∧ (s.distance < s.min ∨ s.min = 0) then s.distance else s.min
            distance := s.distance
            seen := v :: s.seen
            queue := s.queue ++ [v] }

/-- Lines 46-56: the loop over `tmp.edges`. -/
def visitEdges (endWord : GoString) : bfsState → List GoString → Except GoError bfsState
  | s, [] => .ok s
  | s, v :: vs => do
    let s1 ← visitEdge endWord s v
    visitEdges endWord s1 vs

/-- Lines 42-57: the loop `for queue.Len() != 0`, with at most `fuel` dequeues. -/
def bfsLoop (endWord : GoString) : Nat → bfsState → Except GoError bfsState
  | fuel, s =>
    match s.queue with
    | [] => .ok s
    | tmp :: rest =>
      match fuel with
      | 0 => .error .fuelExhausted
      | fuel1 + 1 =>
        match lookupV s.graph tmp with
        | none => .error .nilDereference
        | some t => do
          let s2 ← visitEdges endWord
            { s with queue := rest, distance := s.distance + 1 } t.edges
          bfsLoop endWord fuel1 s2

/-- State of `bfsMinTransformation` on entry to its loop (lines 35-41). -/
def bfsInit (graph : Graph) (beginWord : GoString) : bfsState :=
  { graph := graph, min := 0, distance := 0, seen := [], queue := [beginWord] }

/-- Go `bfsMinTransformation(beginWord, endWord)` on the package-level `graph`:
the returned `min` and the graph it leaves behind. The loop is given one dequeue
per vertex and one more. -/
def bfsMinTransformation (graph : Graph) (beginWord endWord : GoString) :
    Except GoError (Nat × Graph) := do
  let s ← bfsLoop endWord (graph.length + 1) (bfsInit graph beginWord)
  .ok (s.min, s.graph)

/-- Go `WordLadder(start, end, dic)` run when the package-level variable `graph`
holds `graph0`: the returned value and the final value of `graph`. Line 17
replaces `graph0` by a new empty map. -/
def WordLadderFrom (_graph0 : Graph) (start end_ : GoString) (dic : List GoString) :
    Except GoError (Nat × Graph) := do
  let g ← buildGraph start dic
  bfsMinTransformation g start end_

/-- Go `WordLadder(start, end, dic)` in a fresh process (`graph` initially the
empty map of line 11): the returned value. -/
def WordLadder (start end_ : GoString) (dic : List GoString) : Except GoError Nat :=
  (WordLadderFrom [] start end_ dic).map Prod.fst

/-! ## Words as the specification speaks of them -/

/-- Every byte of the word is an ASCII character, so that letters, bytes and
positions coincide. -/
def isASCII (s : GoString) : Prop := ∀ b ∈ s, b < 0x80

instance decIsASCII (s : GoString) : Decidable (isASCII s) := by
  unfold isASCII; infer_instance

/-- The number of positions at which two words differ, counted up to the shorter
length. -/
def diffCount : GoString → GoString → Nat
  | x :: xs, y :: ys => (if x = y then 0 else 1) + diffCount xs ys
  | _, _ => 0

/-- Two words of the same length differ in exactly one position. -/
def oneApart (a b : GoString) : Prop := a.length = b.length ∧ diffCount a b = 1

instance decOneApart (a b : GoString) : Decidable (oneApart a b) := by
  unfold oneApart; infer_instance

/-- A transformation chain of `k` steps from `u`: every word after the first is
in `dic` and differs from its predecessor in exactly one position. -/
inductive Ladder (dic : List GoString) : GoString → GoString → Nat → Prop
  | refl (w : GoString) : Ladder dic w w 0
  | step {u v w : GoString} {k : Nat} :
      Ladder dic u v k → w ∈ dic → oneApart v w → Ladder dic u w (k + 1)

/-- The words of `dic` that the program links to `w1`, in the order of `dic`. -/
def edgesOf (w1 : GoString) (dic : List GoString) : List GoString :=
  dic.filter (fun w2 => decide (isDifferentByOneLetter w1 w2 = .ok true))

/-- Reachable from `start` by at least one edge of the program's graph. -/
inductive Reach (dic : List GoString) (start : GoString) : GoString → Prop
  | first {v : GoString} : v ∈ edgesOf start dic → Reach dic start v
  | next {u v : GoString} : Reach dic start u → v ∈ edgesOf u dic → Reach dic start v

/-- What the graph handed to the search looks like: its keys are `start` and the
words of `dic`, each once, and the vertex under `w` carries the word `w`, the
dictionary words linked to `w` in dictionary order, and distance zero. -/
structure GraphOK (start : GoString) (dic : List GoString) (g : Graph) : Prop where
  mem_keys : ∀ w, w ∈ keys g ↔ w = start ∨ w ∈ dic
  nodup : (keys g).Nodup
  lookup : ∀ w, w = start ∨ w ∈ dic →
    lookupV g w = some { word := w, edges := edgesOf w dic, distance := 0 }

/-- Invariant of the search of `bfsMinTransformation(start, endWord)` on the graph
built from `dic`. It holds at the head of the outer loop with `vs = []`, and inside
the loop over the edges of the dequeued vertex `tmp` with `vs` the edges still to
be looked at. -/
structure SearchInv (start endWord : GoString) (dic : List GoString) (tmp : GoString)
    (vs : List GoString) (s : bfsState) : Prop where
  graphOK : ∀ w, w = start ∨ w ∈ dic →
    ∃ d, lookupV s.graph w = some { word := w, edges := edgesOf w dic, distance := d }
  seenDic : ∀ v ∈ s.seen, v ∈ dic
  seenNodup : s.seen.Nodup
  queueOK : ∀ q ∈ s.queue, q = start ∨ q ∈ s.seen
  tmpOK : tmp = start ∨ tmp ∈ s.seen
  vsOK : ∀ v ∈ vs, v ∈ edgesOf tmp dic
  sound : ∀ v ∈ s.seen, Reach dic start v
  closed : ∀ u, u = start ∨ u ∈ s.seen →
    u ∈ s.queue ∨ ∀ v ∈ edgesOf u dic, v ∈ s.seen ∨ (u = tmp ∧ v ∈ vs)
  minOK : s.min ≠ 0 ↔ endWord ∈ s.seen
  count : s.distance + s.queue.length = s.seen.length + 1

/-- The dictionary with every repeated later occurrence of a word removed. -/
def dedupFirst : List GoString → List GoString
  | [] => []
  | x :: xs => x :: (dedupFirst xs).filter (fun y => decide (y ≠ x))

/-- A chain of `k` edges of the program's graph from `start`. -/
inductive Path (dic : List GoString) (start : GoString) : GoString → Nat → Prop
  | zero : Path dic start start 0
  | next {u v : GoString} {k : Nat} :
      Path dic start u k → v ∈ edgesOf u dic → Path dic start v (k + 1)

/-- A moment of the search: the variables of `bfsMinTransformation`, the edges of
the dequeued vertex that the inner loop has still to look at (`pending`, empty at
the head of the outer loop), and two records kept for the statements only: every
vertex passed to `queue.PushBack` so far and every vertex taken from the front of
the queue so far, in order. -/
structure bfsConfig where
  state : bfsState
  pending : List GoString
  pushed : List GoString
  dequeued : List GoString
  deriving DecidableEq, Repr

/-- The moment after line 41: the source vertex has been pushed. -/
def bfsStart (graph : Graph) (beginWord : GoString) : bfsConfig :=
  { state := bfsInit graph beginWord, pending := [], pushed := [beginWord], dequeued := [] }

/-- One step of the search. With an edge `v` pending: the body of the inner loop
for `v` (lines 47-55), which pushes `v` unless it is in `seen`. With none pending
and a non-empty queue: lines 43-45, dequeue the front vertex, increment the
counter and start on its edges. With none pending and an empty queue the loop has
ended: `none`. -/
def step (endWord : GoString) (c : bfsConfig) : Except GoError (Option bfsConfig) :=
  match c.pending with
  | v :: vs => do
    let s1 ← visitEdge endWord c.state v
    .ok (some { state := s1, pending := vs,
                pushed := if v ∈ c.state.seen then c.pushed else c.pushed ++ [v],
                dequeued := c.dequeued })
  | [] =>
    match c.state.queue with
    | [] => .ok none
    | tmp :: rest =>
      match lookupV c.state.graph tmp with
      | none => .error .nilDereference
      | some t =>
        .ok (some { state := { c.state with queue := rest, distance := c.state.distance + 1 },
                    pending := t.edges, pushed := c.pushed,
                    dequeued := c.dequeued ++ [tmp] })

/-- The moment reached after `n` steps, or the last moment of the search when it
ends earlier. -/
def steps (endWord : GoString) : Nat → bfsConfig → Except GoError bfsConfig
  | 0, c => .ok c
  | n + 1, c => do
    match ← step endWord c with
    | none => .ok c
    | some c1 => steps endWord n c1

/-- Invariant of the moments of the search on the graph built from `dic`: the
invariant of the state, with the vertex dequeued last as the one being expanded,
and what the two records and the `distance` fields keep track of. -/
structure ConfigInv (start endWord : GoString) (dic : List GoString) (c : bfsConfig) :
    Prop where
  search : SearchInv start endWord dic (c.dequeued.getLastD start) c.pending c.state
  counter : c.state.distance = c.dequeued.length
  pend : c.pending ≠ [] → c.dequeued ≠ []
  fifo : c.pushed = c.dequeued ++ c.state.queue
  pushSeen : c.pushed = start :: c.state.seen.reverse
  field : ∀ v ∈ c.state.seen, ∃ x k, lookupV c.state.graph v = some x ∧ 1 ≤ k ∧
    k ≤ x.distance ∧ x.distance ≤ c.state.distance ∧ Path dic start v k
  tmpPath : c.dequeued ≠ [] →
    ∃ k, Path dic start (c.dequeued.getLastD start) k ∧ k + 1 ≤ c.state.distance
  minField : endWord ∈ c.state.seen →
    ∃ x, lookupV c.state.graph endWord = some x ∧ c.state.min = x.distance

/-- Two maps that store, under every key, vertices with the same word and the same
distance, the edge list in the second being that of the first without its repeated
later occurrences. -/
def GraphSim (g g1 : Graph) : Prop :=
  ∀ w, (lookupV g w = none ∧ lookupV g1 w = none) ∨
    ∃ x y, lookupV g w = some x ∧ lookupV g1 w = some y ∧ y.word = x.word ∧
      y.distance = x.distance ∧ y.edges = dedupFirst x.edges

/-- Two states of the search that agree on every variable and whose graphs
correspond. -/
def StateSim (s s1 : bfsState) : Prop :=
  s1.min = s.min ∧ s1.distance = s.distance ∧ s1.seen = s.seen ∧ s1.queue = s.queue ∧
    GraphSim s.graph s1.graph

/-- Two outcomes of a part of the search that correspond: the same error, or
corresponding states. -/
def ResultSim (r r1 : Except GoError bfsState) : Prop :=
  match r, r1 with
  | .ok s, .ok s1 => StateSim s s1
  | .error e, .error e1 => e = e1
  | _, _ => False

/-! ## The edge predicate -/

theorem runeWidth_ascii (b : Nat) (rest : GoString) (h : b < 0x80) :
    runeWidth (b :: rest) = 1 := by
  simp [runeWidth, h]

theorem rangeFrom_bounds : ∀ (s : GoString) (skip k i : Nat),
    i ∈ rangeFrom skip k s → k ≤ i ∧ i < k + s.length := by
  intro s
  induction s with
  | nil => intro skip k i h; simp [rangeFrom] at h
  | cons b rest ih =>
    intro skip k i h
    cases skip with
    | zero =>
      simp only [rangeFrom, List.mem_cons] at h
      rcases h with h | h
      · subst h; simp
      · have h1 := ih _ _ _ h
        simp only [List.length_cons]
        omega
    | succ n =>
      simp only [rangeFrom] at h
      have h1 := ih _ _ _ h
      simp only [List.length_cons]
      omega

theorem rangeIndices_lt (s : GoString) (i : Nat) (h : i ∈ rangeIndices s) : i < s.length := by
  have := rangeFrom_bounds _ _ _ _ h
  omega

theorem rangeFrom_ascii : ∀ (s : GoString) (k : Nat), isASCII s →
    rangeFrom 0 k s = List.range' k s.length := by
  intro s
  induction s with
  | nil => intro k _; simp [rangeFrom]
  | cons b rest ih =>
    intro k ha
    have hb : b < 0x80 := ha b (by simp)
    have hr : isASCII rest := fun c hc => ha c (by simp [hc])
    simp only [rangeFrom, runeWidth_ascii b rest hb, List.length_cons]
    rw [ih (k + 1) hr]
    rfl

theorem rangeIndices_ascii (s : GoString) (h : isASCII s) :
    rangeIndices s = List.range' 0 s.length :=
  rangeFrom_ascii s 0 h

theorem byteAt_lt (s : GoString) (i : Nat) (h : i < s.length) :
    byteAt s i = .ok (s.get ⟨i, h⟩) := by
  simp [byteAt, List.getElem?_eq_getElem h]

theorem isDifferentLoop_total (a b : GoString) : ∀ (is : List Nat) (oneDiff : Bool),
    (∀ i ∈ is, i < a.length ∧ i < b.length) →
    ∃ d, isDifferentLoop a b is oneDiff = .ok d := by
  intro is
  induction is with
  | nil => intro oneDiff _; exact ⟨oneDiff, rfl⟩
  | cons i rest ih =>
    intro oneDiff h
    have hi := h i (by simp)
    have hrest : ∀ j ∈ rest, j < a.length ∧ j < b.length := fun j hj => h j (by simp [hj])
    simp only [isDifferentLoop, byteAt_lt a i hi.1, byteAt_lt b i hi.2]
    show ∃ d, (if a.get ⟨i, hi.1⟩ ≠ b.get ⟨i, hi.2⟩ then
        (if oneDiff = true then Except.ok false else isDifferentLoop a b rest true)
      else isDifferentLoop a b rest oneDiff) = Except.ok d
    by_cases hxy : a.get ⟨i, hi.1⟩ = b.get ⟨i, hi.2⟩
    · simp only [hxy, ne_eq, not_true_eq_false, if_false]
      exact ih oneDiff hrest
    · simp only [ne_eq, hxy, not_false_eq_true, if_true]
      cases oneDiff with
      | true => exact ⟨false, by simp⟩
      | false => simpa using ih true hrest

/-- The predicate never indexes out of range when `b` is as long as `a`. -/
theorem isDifferentByOneLetter_total (a b : GoString) (h : a.length = b.length) :
    ∃ d, isDifferentByOneLetter a b = .ok d := by
  apply isDifferentLoop_total
  intro i hi
  have := rangeIndices_lt a i hi
  omega

theorem diffCount_comm : ∀ (a b : GoString), diffCount a b = diffCount b a := by
  intro a
  induction a with
  | nil => intro b; cases b <;> simp [diffCount]
  | cons x xs ih =>
    intro b
    cases b with
    | nil => simp [diffCount]
    | cons y ys =>
      simp only [diffCount, ih ys]
      by_cases h : x = y
      · simp [h]
      · have h1 : ¬ y = x := fun e => h e.symm
        simp [h, h1]

/-- The loop over the byte indices `k, k+1, ...` of two words of the same length
decides whether the flag plus the number of differing positions from `k` on is
exactly one. -/
theorem isDifferentLoop_range (a b : GoString) (hab : a.length = b.length) :
    ∀ (n k : Nat) (oneDiff : Bool), k + n = a.length →
    isDifferentLoop a b (List.range' k n) oneDiff =
      .ok (decide (diffCount (a.drop k) (b.drop k) + (if oneDiff then 1 else 0) = 1)) := by
  intro n
  induction n with
  | zero =>
    intro k oneDiff hk
    have ha : a.drop k = [] := List.drop_eq_nil_of_le (by omega)
    cases oneDiff <;> simp [isDifferentLoop, ha, diffCount]
  | succ m ih =>
    intro k oneDiff hk
    have hka : k < a.length := by omega
    have hkb : k < b.length := by omega
    have ea : a.drop k = a.get ⟨k, hka⟩ :: a.drop (k + 1) :=
      List.drop_eq_getElem_cons hka
    have eb : b.drop k = b.get ⟨k, hkb⟩ :: b.drop (k + 1) :=
      List.drop_eq_getElem_cons hkb
    have hr : List.range' k (m + 1) = k :: List.range' (k + 1) m := rfl
    rw [hr, ea, eb]
    simp only [isDifferentLoop, byteAt_lt a k hka, byteAt_lt b k hkb, diffCount]
    show (if a.get ⟨k, hka⟩ ≠ b.get ⟨k, hkb⟩ then
        (if oneDiff = true then Except.ok false else isDifferentLoop a b (List.range' (k + 1) m) true)
      else isDifferentLoop a b (List.range' (k + 1) m) oneDiff) = _
    by_cases hxy : a.get ⟨k, hka⟩ = b.get ⟨k, hkb⟩
    · simp only [hxy, ne_eq, not_true_eq_false, if_false, if_true]
      rw [ih (k + 1) oneDiff (by omega)]
      simp
    · simp only [ne_eq, hxy, not_false_eq_true, if_true, if_false]
      cases oneDiff with
      | true =>
        simp
      | false =>
        simp only [Bool.false_eq_true, if_false]
        rw [ih (k + 1) true (by omega)]
        simp

/-- On ASCII words of equal length the predicate is the count of differing
positions being one. -/
theorem isDifferentByOneLetter_ascii (a b : GoString) (ha : isASCII a)
    (hab : a.length = b.length) :
    isDifferentByOneLetter a b = .ok (decide (diffCount a b = 1)) := by
  unfold isDifferentByOneLetter
  rw [rangeIndices_ascii a ha, isDifferentLoop_range a b hab a.length 0 false (by simp)]
  simp

/-! ## The map and the construction of the graph -/

theorem bind_eq_ok {α β : Type} (x : Except GoError α) (f : α → Except GoError β) (b : β) :
    (x >>= f) = .ok b ↔ ∃ a, x = .ok a ∧ f a = .ok b := by
  cases x with
  | error e => simp [bind, Except.bind]
  | ok a => simp [bind, Except.bind]

theorem lookupV_assign (g : Graph) (w : GoString) (v : vertex) (w1 : GoString) :
    lookupV (assign g w v) w1 = if w = w1 then some v else lookupV g w1 := by
  induction g with
  | nil => simp [assign, lookupV]
  | cons p rest ih =>
    obtain ⟨k, x⟩ := p
    by_cases hk : k = w
    · subst hk
      by_cases h1 : k = w1 <;> simp [assign, lookupV, h1]
    · by_cases h1 : k = w1
      · subst h1
        have : ¬ w = k := fun e => hk e.symm
        simp [assign, lookupV, hk, this]
      · simp [assign, lookupV, hk, h1, ih]

theorem mem_keys_assign (g : Graph) (w : GoString) (v : vertex) (w1 : GoString) :
    w1 ∈ keys (assign g w v) ↔ w1 = w ∨ w1 ∈ keys g := by
  induction g with
  | nil => simp [assign, keys]
  | cons p rest ih =>
    obtain ⟨k, x⟩ := p
    by_cases hk : k = w
    · subst hk
      simp [assign, keys]
    · simp only [keys] at ih
      simp only [assign, hk, if_false, keys, List.map_cons, List.mem_cons, ih]
      tauto

theorem keys_assign_of_mem (g : Graph) (w : GoString) (v : vertex) (h : w ∈ keys g) :
    keys (assign g w v) = keys g := by
  induction g with
  | nil => simp [keys] at h
  | cons p rest ih =>
    obtain ⟨k, x⟩ := p
    by_cases hk : k = w
    · subst hk
      simp [assign, keys]
    · have h1 : w ∈ keys rest := by
        simp only [keys, List.map_cons, List.mem_cons] at h
        rcases h with h | h
        · exact absurd h.symm hk
        · exact h
      simp only [keys] at ih
      simp [assign, hk, keys, ih h1]

theorem nodup_keys_assign (g : Graph) (w : GoString) (v : vertex) (h : (keys g).Nodup) :
    (keys (assign g w v)).Nodup := by
  induction g with
  | nil => simp [assign, keys]
  | cons p rest ih =>
    obtain ⟨k, x⟩ := p
    by_cases hk : k = w
    · subst hk
      simpa [assign, keys] using h
    · have h2 : k ∉ keys rest ∧ (keys rest).Nodup := by
        simpa [keys] using h
      have h3 : k ∉ keys (assign rest w v) := by
        rw [mem_keys_assign]
        rintro (e | e)
        · exact hk e
        · exact h2.1 e
      have h4 := ih h2.2
      simp only [keys] at h3 h4
      simp only [assign, hk, if_false, keys, List.map_cons, List.nodup_cons]
      exact ⟨h3, h4⟩

theorem lookupV_eq_none_iff (g : Graph) (w : GoString) : lookupV g w = none ↔ w ∉ keys g := by
  induction g with
  | nil => simp [lookupV, keys]
  | cons p rest ih =>
    obtain ⟨k, x⟩ := p
    simp only [keys] at ih
    by_cases hk : k = w
    · subst hk
      simp [lookupV, keys]
    · have : ¬ w = k := fun e => hk e.symm
      simp [lookupV, keys, hk, ih, this]

theorem length_keys (g : Graph) : (keys g).length = g.length := by
  simp [keys]

theorem foldl_assign_fresh (dic : List GoString) : ∀ (g : Graph),
    (∀ w, w ∈ keys (dic.foldl (fun g w => assign g w (freshVertex w)) g) ↔
      w ∈ keys g ∨ w ∈ dic) ∧
    ((keys g).Nodup → (keys (dic.foldl (fun g w => assign g w (freshVertex w)) g)).Nodup) ∧
    (∀ w, lookupV (dic.foldl (fun g w => assign g w (freshVertex w)) g) w =
      if w ∈ dic then some (freshVertex w) else lookupV g w) := by
  induction dic with
  | nil => intro g; simp
  | cons d rest ih =>
    intro g
    obtain ⟨h1, h2, h3⟩ := ih (assign g d (freshVertex d))
    refine ⟨?_, ?_, ?_⟩
    · intro w
      simp only [List.foldl_cons, h1, mem_keys_assign, List.mem_cons]
      tauto
    · intro hn
      exact h2 (nodup_keys_assign g d _ hn)
    · intro w
      simp only [List.foldl_cons, h3, lookupV_assign, List.mem_cons]
      by_cases hw : w ∈ rest
      · simp [hw]
      · by_cases hd : d = w
        · subst hd; simp
        · have : ¬ w = d := fun e => hd e.symm
          simp [hw, hd, this]

theorem makeVertices_eq (start : GoString) (dic : List GoString) :
    makeVertices start dic =
      dic.foldl (fun g w => assign g w (freshVertex w)) (assign [] start (freshVertex start)) :=
  rfl

theorem mem_keys_makeVertices (start : GoString) (dic : List GoString) (w : GoString) :
    w ∈ keys (makeVertices start dic) ↔ w = start ∨ w ∈ dic := by
  rw [makeVertices_eq, (foldl_assign_fresh dic _).1]
  simp [assign, keys]

theorem nodup_keys_makeVertices (start : GoString) (dic : List GoString) :
    (keys (makeVertices start dic)).Nodup := by
  rw [makeVertices_eq]
  apply (foldl_assign_fresh dic _).2.1
  simp [assign, keys]

theorem lookupV_makeVertices (start : GoString) (dic : List GoString) (w : GoString)
    (h : w = start ∨ w ∈ dic) : lookupV (makeVertices start dic) w = some (freshVertex w) := by
  rw [makeVertices_eq, (foldl_assign_fresh dic _).2.2]
  by_cases hw : w ∈ dic
  · simp [hw]
  · have hs : w = start := h.resolve_right hw
    subst hs
    simp [hw, assign, lookupV]

theorem mem_edgesOf (w1 : GoString) (dic : List GoString) (w2 : GoString) :
    w2 ∈ edgesOf w1 dic ↔ w2 ∈ dic ∧ isDifferentByOneLetter w1 w2 = .ok true := by
  simp [edgesOf]

theorem edgesOf_cons (w1 w2 : GoString) (rest : List GoString) (d : Bool)
    (h : isDifferentByOneLetter w1 w2 = .ok d) :
    edgesOf w1 (w2 :: rest) = (if d then [w2] else []) ++ edgesOf w1 rest := by
  cases d <;> simp [edgesOf, List.filter_cons, h]

theorem addEdgesFor_total (w1 : GoString) : ∀ (dic1 : List GoString) (g g1 : Graph),
    addEdgesFor w1 g dic1 = .ok g1 →
    ∀ w2 ∈ dic1, ∃ d, isDifferentByOneLetter w1 w2 = .ok d := by
  intro dic1
  induction dic1 with
  | nil => intro g g1 _ w2 hw; simp at hw
  | cons x rest ih =>
    intro g g1 h w2 hw
    simp only [addEdgesFor] at h
    obtain ⟨g2, h1, h2⟩ := (bind_eq_ok _ _ _).1 h
    simp only [List.mem_cons] at hw
    rcases hw with hw | hw
    · subst hw
      simp only [addEdge] at h1
      obtain ⟨d, hd, _⟩ := (bind_eq_ok _ _ _).1 h1
      exact ⟨d, hd⟩
    · exact ih g2 g1 h2 w2 hw

/-- The inner loop for the key `w1`: it appends to the edge list of `w1` the words
of the dictionary linked to `w1`, and touches nothing else. -/
theorem addEdgesFor_spec (w1 : GoString) : ∀ (dic1 : List GoString) (g : Graph) (v : vertex),
    lookupV g w1 = some v →
    (∀ w2 ∈ dic1, ∃ d, isDifferentByOneLetter w1 w2 = .ok d) →
    ∃ g1, addEdgesFor w1 g dic1 = .ok g1 ∧ keys g1 = keys g ∧
      lookupV g1 w1 = some { v with edges := v.edges ++ edgesOf w1 dic1 } ∧
      ∀ w, w ≠ w1 → lookupV g1 w = lookupV g w := by
  intro dic1
  induction dic1 with
  | nil =>
    intro g v hv _
    exact ⟨g, rfl, rfl, by simp [edgesOf, hv], fun _ _ => rfl⟩
  | cons x rest ih =>
    intro g v hv ht
    obtain ⟨d, hd⟩ := ht x (by simp)
    have hrest : ∀ w2 ∈ rest, ∃ d, isDifferentByOneLetter w1 w2 = .ok d :=
      fun w2 hw => ht w2 (by simp [hw])
    have hk : w1 ∈ keys g := by
      by_contra hc
      rw [(lookupV_eq_none_iff g w1).2 hc] at hv
      exact Option.noConfusion hv
    cases d with
    | false =>
      obtain ⟨g1, h1, h2, h3, h4⟩ := ih g v hv hrest
      refine ⟨g1, ?_, h2, ?_, h4⟩
      · simp only [addEdgesFor, addEdge, hd]
        exact h1
      · rw [h3, edgesOf_cons w1 x rest false hd]
        simp
    | true =>
      have hv1 : lookupV (assign g w1 { v with edges := v.edges ++ [x] }) w1 =
          some { v with edges := v.edges ++ [x] } := by
        simp [lookupV_assign]
      obtain ⟨g1, h1, h2, h3, h4⟩ := ih _ _ hv1 hrest
      refine ⟨g1, ?_, ?_, ?_, ?_⟩
      · simp only [addEdgesFor, addEdge, hd, hv]
        exact h1
      · rw [h2, keys_assign_of_mem g w1 _ hk]
      · rw [h3, edgesOf_cons w1 x rest true hd]
        simp
      · intro w hw
        rw [h4 w hw, lookupV_assign]
        have : ¬ w1 = w := fun e => hw e.symm
        simp [this]

theorem addAllEdges_total (dic : List GoString) : ∀ (ks : List GoString) (g g1 : Graph),
    addAllEdges dic g ks = .ok g1 →
    ∀ w1 ∈ ks, ∀ w2 ∈ dic, ∃ d, isDifferentByOneLetter w1 w2 = .ok d := by
  intro ks
  induction ks with
  | nil => intro g g1 _ w1 hw; simp at hw
  | cons k rest ih =>
    intro g g1 h w1 hw
    simp only [addAllEdges] at h
    obtain ⟨g2, h1, h2⟩ := (bind_eq_ok _ _ _).1 h
    simp only [List.mem_cons] at hw
    rcases hw with hw | hw
    · subst hw
      exact addEdgesFor_total w1 dic g g2 h1
    · exact ih g2 g1 h2 w1 hw

/-- The outer loop over distinct keys `ks` of the map: every key of `ks` gets its
linked dictionary words appended, every other vertex is untouched. -/
theorem addAllEdges_spec (dic : List GoString) : ∀ (ks : List GoString) (g : Graph),
    ks.Nodup → (∀ k ∈ ks, k ∈ keys g) →
    (∀ w1 ∈ ks, ∀ w2 ∈ dic, ∃ d, isDifferentByOneLetter w1 w2 = .ok d) →
    ∃ g1, addAllEdges dic g ks = .ok g1 ∧ keys g1 = keys g ∧
      (∀ w ∈ ks, ∀ v, lookupV g w = some v →
        lookupV g1 w = some { v with edges := v.edges ++ edgesOf w dic }) ∧
      ∀ w, w ∉ ks → lookupV g1 w = lookupV g w := by
  intro ks
  induction ks with
  | nil =>
    intro g _ _ _
    exact ⟨g, rfl, rfl, by simp, fun _ _ => rfl⟩
  | cons k rest ih =>
    intro g hnd hks ht
    have hk : k ∈ keys g := hks k (by simp)
    obtain ⟨hkr, hndr⟩ : k ∉ rest ∧ rest.Nodup := by simpa using hnd
    obtain ⟨v, hv⟩ : ∃ v, lookupV g k = some v := by
      cases hl : lookupV g k with
      | none => exact absurd hk ((lookupV_eq_none_iff g k).1 hl)
      | some v => exact ⟨v, rfl⟩
    obtain ⟨g2, e1, e2, e3, e4⟩ :=
      addEdgesFor_spec k dic g v hv (ht k (by simp))
    obtain ⟨g1, f1, f2, f3, f4⟩ := ih g2 hndr
      (fun w hw => by rw [e2]; exact hks w (by simp [hw]))
      (fun w1 hw => ht w1 (by simp [hw]))
    refine ⟨g1, ?_, ?_, ?_, ?_⟩
    · simp only [addAllEdges, e1]
      exact f1
    · rw [f2, e2]
    · intro w hw x hx
      simp only [List.mem_cons] at hw
      rcases hw with hw | hw
      · subst hw
        rw [f4 w hkr, e3]
        rw [hv] at hx
        cases hx
        rfl
      · have hne : w ≠ k := fun e => hkr (e ▸ hw)
        exact f3 w hw x (by rw [e4 w hne]; exact hx)
    · intro w hw
      simp only [List.mem_cons, not_or] at hw
      rw [f4 w hw.2, e4 w hw.1]

theorem buildGraph_spec (start : GoString) (dic : List GoString)
    (ht : ∀ w1, w1 = start ∨ w1 ∈ dic → ∀ w2 ∈ dic, ∃ d, isDifferentByOneLetter w1 w2 = .ok d) :
    ∃ g, buildGraph start dic = .ok g ∧ GraphOK start dic g := by
  obtain ⟨g, h1, h2, h3, _⟩ := addAllEdges_spec dic (keys (makeVertices start dic))
    (makeVertices start dic) (nodup_keys_makeVertices start dic) (fun _ h => h)
    (fun w1 hw => ht w1 ((mem_keys_makeVertices start dic w1).1 hw))
  refine ⟨g, h1, ?_, ?_, ?_⟩
  · intro w
    rw [h2, mem_keys_makeVertices]
  · rw [h2]
    exact nodup_keys_makeVertices start dic
  · intro w hw
    rw [h3 w ((mem_keys_makeVertices start dic w).2 hw) _ (lookupV_makeVertices start dic w hw)]
    simp [freshVertex]

theorem buildGraph_ok (start : GoString) (dic : List GoString) (g : Graph)
    (h : buildGraph start dic = .ok g) : GraphOK start dic g := by
  have ht := addAllEdges_total dic _ _ _ h
  obtain ⟨g1, h1, h2⟩ := buildGraph_spec start dic
    (fun w1 hw => ht w1 ((mem_keys_makeVertices start dic w1).2 hw))
  rw [h] at h1
  cases h1
  exact h2

theorem buildGraph_equal_length (start : GoString) (dic : List GoString)
    (hlen : ∀ w ∈ dic, w.length = start.length) :
    ∃ g, buildGraph start dic = .ok g ∧ GraphOK start dic g := by
  apply buildGraph_spec
  intro w1 hw1 w2 hw2
  apply isDifferentByOneLetter_total
  rcases hw1 with h | h
  · rw [h, hlen w2 hw2]
  · rw [hlen w1 h, hlen w2 hw2]

/-! ### The iteration order of the map does not matter -/

theorem isDifferentLoop_error (a b : GoString) : ∀ (is : List Nat) (oneDiff : Bool)
    (e : GoError), isDifferentLoop a b is oneDiff = .error e → e = .indexOutOfRange := by
  intro is
  induction is with
  | nil => intro oneDiff e h; simp [isDifferentLoop] at h
  | cons i rest ih =>
    intro oneDiff e h
    simp only [isDifferentLoop, byteAt] at h
    cases ha : a[i]? with
    | none =>
      simp only [ha, bind, Except.bind] at h
      exact (Except.error.inj h).symm
    | some x =>
      cases hb : b[i]? with
      | none =>
        simp only [ha, hb, bind, Except.bind] at h
        exact (Except.error.inj h).symm
      | some y =>
        simp only [ha, hb, bind, Except.bind] at h
        by_cases hxy : x = y
        · simp only [hxy, ne_eq, not_true_eq_false, if_false] at h
          exact ih oneDiff e h
        · simp only [ne_eq, hxy, not_false_eq_true, if_true] at h
          cases oneDiff with
          | true => simp at h
          | false => exact ih true e (by simpa using h)

theorem addEdge_cases (g : Graph) (w1 w2 : GoString) (hk : w1 ∈ keys g) :
    (∃ g1, addEdge g w1 w2 = .ok g1 ∧ keys g1 = keys g) ∨
      addEdge g w1 w2 = .error .indexOutOfRange := by
  cases hd : isDifferentByOneLetter w1 w2 with
  | error e =>
    right
    have := isDifferentLoop_error w1 w2 _ _ e hd
    subst this
    simp [addEdge, hd, bind, Except.bind]
  | ok d =>
    left
    cases d with
    | false => exact ⟨g, by simp [addEdge, hd, bind, Except.bind], rfl⟩
    | true =>
      cases hl : lookupV g w1 with
      | none => exact absurd hk ((lookupV_eq_none_iff g w1).1 hl)
      | some v =>
        exact ⟨assign g w1 { v with edges := v.edges ++ [w2] },
          by simp [addEdge, hd, hl, bind, Except.bind], keys_assign_of_mem g w1 _ hk⟩

theorem addEdgesFor_cases (w1 : GoString) : ∀ (dic1 : List GoString) (g : Graph),
    w1 ∈ keys g →
    (∃ g1, addEdgesFor w1 g dic1 = .ok g1 ∧ keys g1 = keys g) ∨
      addEdgesFor w1 g dic1 = .error .indexOutOfRange := by
  intro dic1
  induction dic1 with
  | nil => intro g _; exact Or.inl ⟨g, rfl, rfl⟩
  | cons x rest ih =>
    intro g hk
    rcases addEdge_cases g w1 x hk with ⟨g1, h1, h2⟩ | h1
    · rcases ih g1 (by rw [h2]; exact hk) with ⟨g2, h3, h4⟩ | h3
      · exact Or.inl ⟨g2, by simp [addEdgesFor, h1, h3, bind, Except.bind], by rw [h4, h2]⟩
      · exact Or.inr (by simp [addEdgesFor, h1, h3, bind, Except.bind])
    · exact Or.inr (by simp [addEdgesFor, h1, bind, Except.bind])

theorem addAllEdges_cases (dic : List GoString) : ∀ (ks : List GoString) (g : Graph),
    (∀ k ∈ ks, k ∈ keys g) →
    (∃ g1, addAllEdges dic g ks = .ok g1) ∨
      addAllEdges dic g ks = .error .indexOutOfRange := by
  intro ks
  induction ks with
  | nil => intro g _; exact Or.inl ⟨g, rfl⟩
  | cons k rest ih =>
    intro g hks
    rcases addEdgesFor_cases k dic g (hks k (by simp)) with ⟨g1, h1, h2⟩ | h1
    · rcases ih g1 (fun w hw => by rw [h2]; exact hks w (by simp [hw])) with ⟨g2, h3⟩ | h3
      · exact Or.inl ⟨g2, by simp [addAllEdges, h1, h3, bind, Except.bind]⟩
      · exact Or.inr (by simp [addAllEdges, h1, h3, bind, Except.bind])
    · exact Or.inr (by simp [addAllEdges, h1, bind, Except.bind])

/-- Two maps with the same keys in the same order, each once, and the same vertex
under every key are the same map. -/
theorem graph_ext : ∀ (g1 g2 : Graph), keys g1 = keys g2 → (keys g1).Nodup →
    (∀ w, lookupV g1 w = lookupV g2 w) → g1 = g2 := by
  intro g1
  induction g1 with
  | nil =>
    intro g2 hk _ _
    cases g2 with
    | nil => rfl
    | cons p r => simp [keys] at hk
  | cons p r1 ih =>
    intro g2 hk hn hl
    cases g2 with
    | nil => simp [keys] at hk
    | cons q r2 =>
      obtain ⟨k, x⟩ := p
      obtain ⟨k2, x2⟩ := q
      simp only [keys, List.map_cons, List.cons.injEq] at hk
      obtain ⟨hk1, hk2⟩ := hk
      subst hk1
      have hn1 : k ∉ keys r1 ∧ (keys r1).Nodup := by simpa [keys] using hn
      have hx : x = x2 := by
        have := hl k
        simpa [lookupV] using this
      subst hx
      have hrest : r1 = r2 := by
        apply ih r2 hk2 hn1.2
        intro w
        by_cases hw : k = w
        · subst hw
          rw [(lookupV_eq_none_iff r1 k).2 hn1.1]
          have hk3 : k ∉ keys r2 := by
            have : keys r1 = keys r2 := hk2
            rw [← this]
            exact hn1.1
          rw [(lookupV_eq_none_iff r2 k).2 hk3]
        · have := hl w
          simpa [lookupV, hw] using this
      rw [hrest]

/-- Go leaves the order of `for w1 := range graph` unspecified. Whatever order
`ks` the keys are visited in, the construction ends in the same way: with the same
graph, or with the same panic. -/
theorem addAllEdges_order (start : GoString) (dic : List GoString) (ks : List GoString)
    (hp : ks.Perm (keys (makeVertices start dic))) :
    addAllEdges dic (makeVertices start dic) ks = buildGraph start dic := by
  have hnd : ks.Nodup := hp.nodup_iff.2 (nodup_keys_makeVertices start dic)
  have hmem : ∀ k ∈ ks, k ∈ keys (makeVertices start dic) := fun k hk => hp.subset hk
  by_cases ht : ∀ w1 ∈ keys (makeVertices start dic), ∀ w2 ∈ dic,
      ∃ d, isDifferentByOneLetter w1 w2 = .ok d
  · obtain ⟨g1, e1, k1, l1, n1⟩ := addAllEdges_spec dic ks (makeVertices start dic) hnd hmem
      (fun w1 hw => ht w1 (hmem w1 hw))
    obtain ⟨g2, e2, k2, l2, n2⟩ := addAllEdges_spec dic (keys (makeVertices start dic))
      (makeVertices start dic) (nodup_keys_makeVertices start dic) (fun _ h => h) ht
    have e2a : buildGraph start dic = .ok g2 := e2
    rw [e1, e2a]
    congr 1
    apply graph_ext g1 g2 (by rw [k1, k2]) (by rw [k1]; exact nodup_keys_makeVertices start dic)
    intro w
    by_cases hw : w ∈ keys (makeVertices start dic)
    · cases hv : lookupV (makeVertices start dic) w with
      | none => exact absurd hw ((lookupV_eq_none_iff _ w).1 hv)
      | some v => rw [l1 w (hp.symm.subset hw) v hv, l2 w hw v hv]
    · rw [n1 w (fun h => hw (hmem w h)), n2 w hw]
  · have hne1 : ∀ g, addAllEdges dic (makeVertices start dic) ks ≠ .ok g := by
      intro g hg
      apply ht
      intro w1 hw
      exact addAllEdges_total dic ks _ g hg w1 (hp.symm.subset hw)
    have hne2 : ∀ g, buildGraph start dic ≠ .ok g := by
      intro g hg
      exact ht (addAllEdges_total dic _ _ g hg)
    rcases addAllEdges_cases dic ks (makeVertices start dic) hmem with ⟨g, hg⟩ | h1
    · exact absurd hg (hne1 g)
    · rcases addAllEdges_cases dic (keys (makeVertices start dic)) (makeVertices start dic)
        (fun _ h => h) with ⟨g, hg⟩ | h2
      · exact absurd hg (hne2 g)
      · rw [h1]
        exact h2.symm

/-! ## The search -/

theorem SearchInv.retarget {start endWord : GoString} {dic : List GoString} {tmp : GoString}
    {s : bfsState} (h : SearchInv start endWord dic tmp [] s) :
    SearchInv start endWord dic start [] s where
  graphOK := h.graphOK
  seenDic := h.seenDic
  seenNodup := h.seenNodup
  queueOK := h.queueOK
  tmpOK := Or.inl rfl
  vsOK := by intro v hv; simp at hv
  sound := h.sound
  closed := by
    intro u hu
    rcases h.closed u hu with h1 | h1
    · exact Or.inl h1
    · right
      intro v hv
      rcases h1 v hv with h2 | h2
      · exact Or.inl h2
      · simp at h2
  minOK := h.minOK
  count := h.count

/-- One edge `v` of the dequeued vertex: the body of the inner loop succeeds and
keeps the invariant; `min` changes only when `v` is the end word seen for the first
time, and then becomes the counter. -/
theorem visitEdge_inv {start endWord : GoString} {dic : List GoString} {tmp v : GoString}
    {vs : List GoString} {s : bfsState}
    (h : SearchInv start endWord dic tmp (v :: vs) s) (hd : 1 ≤ s.distance) :
    ∃ s1, visitEdge endWord s v = .ok s1 ∧ SearchInv start endWord dic tmp vs s1 ∧
      s1.distance = s.distance ∧ (∀ x ∈ s.seen, x ∈ s1.seen) ∧ v ∈ s1.seen ∧
      (endWord ∈ s.seen → s1.min = s.min) ∧
      (endWord ∉ s.seen → endWord ∈ s1.seen → s1.min = s.distance) := by
  by_cases hv : v ∈ s.seen
  · refine ⟨s, by simp [visitEdge, hv], ?_, rfl, fun _ hx => hx, hv, fun _ => rfl, ?_⟩
    · exact
        { graphOK := h.graphOK
          seenDic := h.seenDic
          seenNodup := h.seenNodup
          queueOK := h.queueOK
          tmpOK := h.tmpOK
          vsOK := fun x hx => h.vsOK x (by simp [hx])
          sound := h.sound
          closed := by
            intro u hu
            rcases h.closed u hu with h1 | h1
            · exact Or.inl h1
            · right
              intro x hx
              rcases h1 x hx with h2 | ⟨h2, h3⟩
              · exact Or.inl h2
              · simp only [List.mem_cons] at h3
                rcases h3 with h3 | h3
                · exact Or.inl (h3 ▸ hv)
                · exact Or.inr ⟨h2, h3⟩
          minOK := h.minOK
          count := h.count }
    · intro h1 h2
      exact absurd h2 h1
  · have hvE : v ∈ edgesOf tmp dic := h.vsOK v (by simp)
    have hvD : v ∈ dic := ((mem_edgesOf tmp dic v).1 hvE).1
    obtain ⟨d, hl⟩ := h.graphOK v (Or.inr hvD)
    have hreach : Reach dic start v := by
      rcases h.tmpOK with ht | ht
      · exact Reach.first (ht ▸ hvE)
      · exact Reach.next (h.sound tmp ht) hvE
    have hmin0 : endWord ∉ s.seen → s.min = 0 := by
      intro he
      by_contra hc
      exact he (h.minOK.1 hc)
    refine ⟨{ graph := assign s.graph v
                { word := v, edges := edgesOf v dic, distance := s.distance }
              min := if v = endWord ∧ (s.distance < s.min ∨ s.min = 0) then s.distance
                else s.min
              distance := s.distance
              seen := v :: s.seen
              queue := s.queue ++ [v] },
      by simp only [visitEdge, hv, if_false, hl], ?_, rfl, ?_, ?_, ?_, ?_⟩
    · exact
        { graphOK := by
            intro w hw
            simp only [lookupV_assign]
            by_cases hvw : v = w
            · subst hvw
              exact ⟨s.distance, by simp⟩
            · simp only [hvw, if_false]
              exact h.graphOK w hw
          seenDic := by
            intro x hx
            simp only [List.mem_cons] at hx
            rcases hx with hx | hx
            · exact hx ▸ hvD
            · exact h.seenDic x hx
          seenNodup := List.nodup_cons.2 ⟨hv, h.seenNodup⟩
          queueOK := by
            intro q hq
            simp only [List.mem_append, List.mem_singleton] at hq
            rcases hq with hq | hq
            · rcases h.queueOK q hq with h1 | h1
              · exact Or.inl h1
              · exact Or.inr (List.mem_cons_of_mem _ h1)
            · exact Or.inr (by simp [hq])
          tmpOK := by
            rcases h.tmpOK with h1 | h1
            · exact Or.inl h1
            · exact Or.inr (List.mem_cons_of_mem _ h1)
          vsOK := fun x hx => h.vsOK x (by simp [hx])
          sound := by
            intro x hx
            simp only [List.mem_cons] at hx
            rcases hx with hx | hx
            · exact hx ▸ hreach
            · exact h.sound x hx
          closed := by
            intro u hu
            by_cases huv : u = v
            · left
              simp [huv]
            · have hu1 : u = start ∨ u ∈ s.seen := by
                rcases hu with hu | hu
                · exact Or.inl hu
                · simp only [List.mem_cons] at hu
                  exact Or.inr (hu.resolve_left huv)
              rcases h.closed u hu1 with h1 | h1
              · left
                simp [h1]
              · right
                intro x hx
                rcases h1 x hx with h2 | ⟨h2, h3⟩
                · exact Or.inl (List.mem_cons_of_mem _ h2)
                · simp only [List.mem_cons] at h3
                  rcases h3 with h3 | h3
                  · exact Or.inl (by simp [h3])
                  · exact Or.inr ⟨h2, h3⟩
          minOK := by
            show (if v = endWord ∧ (s.distance < s.min ∨ s.min = 0) then s.distance else s.min) ≠ 0
              ↔ endWord ∈ v :: s.seen
            by_cases hve : v = endWord
            · have h0 : s.min = 0 := hmin0 (hve ▸ hv)
              simp only [hve, h0, or_true, and_self, if_true, List.mem_cons, true_or, iff_true]
              omega
            · have hne : ¬ endWord = v := fun e => hve e.symm
              simp only [hve, false_and, if_false, List.mem_cons, hne, false_or]
              exact h.minOK
          count := by
            have := h.count
            simp only [List.length_append, List.length_cons, List.length_nil]
            omega }
    · intro x hx
      exact List.mem_cons_of_mem _ hx
    · simp
    · intro he
      have hve : ¬ v = endWord := fun e => hv (e ▸ he)
      show (if v = endWord ∧ (s.distance < s.min ∨ s.min = 0) then s.distance else s.min) = s.min
      simp [hve]
    · intro he1 he2
      have hve : v = endWord := by
        simp only [List.mem_cons] at he2
        rcases he2 with he2 | he2
        · exact he2.symm
        · exact absurd he2 he1
      show (if v = endWord ∧ (s.distance < s.min ∨ s.min = 0) then s.distance else s.min)
        = s.distance
      simp [hve, hmin0 he1]

/-- The whole inner loop over the remaining edges `vs` of the dequeued vertex. -/
theorem visitEdges_inv {start endWord : GoString} {dic : List GoString} {tmp : GoString} :
    ∀ (vs : List GoString) (s : bfsState),
    SearchInv start endWord dic tmp vs s → 1 ≤ s.distance →
    ∃ s1, visitEdges endWord s vs = .ok s1 ∧ SearchInv start endWord dic tmp [] s1 ∧
      s1.distance = s.distance ∧ (∀ x ∈ s.seen, x ∈ s1.seen) ∧ (∀ v ∈ vs, v ∈ s1.seen) ∧
      (endWord ∈ s.seen → s1.min = s.min) ∧
      (endWord ∉ s.seen → endWord ∈ s1.seen → s1.min = s.distance) := by
  intro vs
  induction vs with
  | nil =>
    intro s h _
    exact ⟨s, rfl, h, rfl, fun _ hx => hx, by simp, fun _ => rfl,
      fun h1 h2 => absurd h2 h1⟩
  | cons v rest ih =>
    intro s h hd
    obtain ⟨s1, e1, i1, d1, m1, v1, p1, q1⟩ := visitEdge_inv h hd
    obtain ⟨s2, e2, i2, d2, m2, v2, p2, q2⟩ := ih s1 i1 (by omega)
    refine ⟨s2, ?_, i2, by omega, fun x hx => m2 x (m1 x hx), ?_, ?_, ?_⟩
    · simp only [visitEdges, e1]
      exact e2
    · intro x hx
      simp only [List.mem_cons] at hx
      rcases hx with hx | hx
      · exact hx ▸ m2 v v1
      · exact v2 x hx
    · intro he
      rw [p2 (m1 _ he), p1 he]
    · intro he1 he2
      by_cases he : endWord ∈ s1.seen
      · rw [p2 he, q1 he1 he]
      · rw [q2 he he2, d1]

/-- Dequeuing `tmp` and incrementing the counter (lines 43-45) prepares the inner
loop over all the edges of `tmp`. -/
theorem SearchInv.dequeue {start endWord : GoString} {dic : List GoString} {s : bfsState}
    {tmp : GoString} {rest : List GoString}
    (h : SearchInv start endWord dic start [] s) (hq : s.queue = tmp :: rest) :
    (∃ d, lookupV s.graph tmp =
      some { word := tmp, edges := edgesOf tmp dic, distance := d }) ∧
    SearchInv start endWord dic tmp (edgesOf tmp dic)
      { s with queue := rest, distance := s.distance + 1 } := by
  have htq : tmp ∈ s.queue := by simp [hq]
  have htmp : tmp = start ∨ tmp ∈ s.seen := h.queueOK tmp htq
  have htmp1 : tmp = start ∨ tmp ∈ dic := htmp.imp id (h.seenDic tmp)
  refine ⟨h.graphOK tmp htmp1, ?_⟩
  exact
    { graphOK := h.graphOK
      seenDic := h.seenDic
      seenNodup := h.seenNodup
      queueOK := fun q hq1 => h.queueOK q (by simp [hq, hq1])
      tmpOK := htmp
      vsOK := fun _ hv => hv
      sound := h.sound
      closed := by
        intro u hu
        rcases h.closed u hu with h1 | h1
        · rw [hq] at h1
          simp only [List.mem_cons] at h1
          rcases h1 with h1 | h1
          · right
            intro v hv
            exact Or.inr ⟨h1, h1 ▸ hv⟩
          · exact Or.inl h1
        · right
          intro v hv
          rcases h1 v hv with h2 | h2
          · exact Or.inl h2
          · simp at h2
      minOK := h.minOK
      count := by
        have := h.count
        rw [hq] at this
        simp only [List.length_cons] at this
        show s.distance + 1 + rest.length = s.seen.length + 1
        omega }

/-- One iteration of the outer loop, when the queue is not empty and fuel is left. -/
theorem bfsLoop_succ (endWord : GoString) (n : Nat) (s : bfsState) (tmp : GoString)
    (rest : List GoString) (t : vertex) (hq : s.queue = tmp :: rest)
    (hl : lookupV s.graph tmp = some t) :
    bfsLoop endWord (n + 1) s =
      (visitEdges endWord { s with queue := rest, distance := s.distance + 1 } t.edges >>=
        bfsLoop endWord n) := by
  rw [bfsLoop]
  simp only [hq, hl]

theorem bfsLoop_nil (endWord : GoString) (n : Nat) (s : bfsState) (hq : s.queue = []) :
    bfsLoop endWord n s = .ok s := by
  unfold bfsLoop
  simp [hq]

/-- The outer loop from any state satisfying the invariant: with one unit of fuel
per vertex not yet dequeued it ends with an empty queue, and it leaves `min`
alone once the end word has been seen. -/
theorem bfsLoop_inv {start endWord : GoString} {dic : List GoString} (N : Nat)
    (hN : ∀ l : List GoString, l.Nodup → (∀ v ∈ l, v ∈ dic) → l.length ≤ N) :
    ∀ (fuel : Nat) (s : bfsState), SearchInv start endWord dic start [] s →
    N + 1 ≤ fuel + s.distance →
    ∃ s1, bfsLoop endWord fuel s = .ok s1 ∧ SearchInv start endWord dic start [] s1 ∧
      s1.queue = [] ∧ (∀ x ∈ s.seen, x ∈ s1.seen) ∧ (endWord ∈ s.seen → s1.min = s.min) := by
  intro fuel
  induction fuel with
  | zero =>
    intro s h hf
    have hS := hN s.seen h.seenNodup h.seenDic
    have hc := h.count
    have hq : s.queue = [] := by
      cases hq : s.queue with
      | nil => rfl
      | cons a l => rw [hq] at hc; simp at hc; omega
    exact ⟨s, bfsLoop_nil endWord 0 s hq, h, hq, fun _ hx => hx, fun _ => rfl⟩
  | succ n ih =>
    intro s h hf
    cases hq : s.queue with
    | nil => exact ⟨s, bfsLoop_nil endWord _ s hq, h, hq, fun _ hx => hx, fun _ => rfl⟩
    | cons tmp rest =>
      obtain ⟨⟨d, hl⟩, hi⟩ := h.dequeue hq
      obtain ⟨s2, e2, i2, d2, m2, _, p2, _⟩ := visitEdges_inv _ _ hi (by simp)
      have d2a : s2.distance = s.distance + 1 := d2
      obtain ⟨s3, e3, i3, q3, m3, p3⟩ := ih s2 i2.retarget (by omega)
      refine ⟨s3, ?_, i3, q3, fun x hx => m3 x (m2 x hx), ?_⟩
      · rw [bfsLoop_succ endWord n s tmp rest _ hq hl, bind_eq_ok]
        exact ⟨s2, e2, e3⟩
      · intro he
        rw [p3 (m2 _ he)]
        exact p2 he

/-- When the queue is empty the seen set is closed under the edges, so it holds
every word reachable from `start`. -/
theorem SearchInv.complete {start endWord : GoString} {dic : List GoString} {s : bfsState}
    (h : SearchInv start endWord dic start [] s) (hq : s.queue = []) :
    ∀ v, Reach dic start v → v ∈ s.seen := by
  have hcl : ∀ u, u = start ∨ u ∈ s.seen → ∀ v ∈ edgesOf u dic, v ∈ s.seen := by
    intro u hu v hv
    rcases h.closed u hu with h1 | h1
    · rw [hq] at h1; simp at h1
    · rcases h1 v hv with h2 | h2
      · exact h2
      · simp at h2
  intro v hr
  induction hr with
  | first hv => exact hcl start (Or.inl rfl) _ hv
  | next _ hv ih => exact hcl _ (Or.inr ih) _ hv

theorem bfsInit_inv {start endWord : GoString} {dic : List GoString} {g : Graph}
    (hg : GraphOK start dic g) : SearchInv start endWord dic start [] (bfsInit g start) where
  graphOK := fun w hw => ⟨0, hg.lookup w hw⟩
  seenDic := by intro v hv; simp [bfsInit] at hv
  seenNodup := by simp [bfsInit]
  queueOK := by intro q hq; simp [bfsInit] at hq; exact Or.inl hq
  tmpOK := Or.inl rfl
  vsOK := by intro v hv; simp at hv
  sound := by intro v hv; simp [bfsInit] at hv
  closed := by intro u hu; simp [bfsInit] at hu; left; simp [bfsInit, hu]
  minOK := by simp [bfsInit]
  count := by simp [bfsInit]

theorem GraphOK.seen_bound {start : GoString} {dic : List GoString} {g : Graph}
    (hg : GraphOK start dic g) (l : List GoString) (hl : l.Nodup) (hd : ∀ v ∈ l, v ∈ dic) :
    l.length ≤ g.length := by
  rw [← length_keys]
  apply List.Subperm.length_le
  apply List.subperm_of_subset hl
  intro v hv
  exact (hg.mem_keys v).2 (Or.inr (hd v hv))

/-- The search on the graph of `WordLadder` always ends, and returns a non-zero
value exactly when the end word is reachable from `start` by at least one edge. -/
theorem bfsMinTransformation_spec {start : GoString} {dic : List GoString} {g : Graph}
    (hg : GraphOK start dic g) (endWord : GoString) :
    ∃ r g1, bfsMinTransformation g start endWord = .ok (r, g1) ∧
      (r ≠ 0 ↔ Reach dic start endWord) := by
  obtain ⟨s1, e1, i1, q1, _, _⟩ := bfsLoop_inv g.length hg.seen_bound (g.length + 1)
    (bfsInit g start) (bfsInit_inv hg : SearchInv start endWord dic start [] _)
    (by simp [bfsInit])
  refine ⟨s1.min, s1.graph, ?_, ?_⟩
  · simp only [bfsMinTransformation, e1]
    rfl
  · rw [i1.minOK]
    exact ⟨fun h => i1.sound _ h, fun h => i1.complete q1 _ h⟩

theorem WordLadder_eq (start end_ : GoString) (dic : List GoString) (g g1 : Graph) (r : Nat)
    (hb : buildGraph start dic = .ok g)
    (hs : bfsMinTransformation g start end_ = .ok (r, g1)) :
    WordLadder start end_ dic = .ok r := by
  simp only [WordLadder, WordLadderFrom, hb]
  show Except.map Prod.fst (bfsMinTransformation g start end_) = _
  rw [hs]
  rfl

/-- For a dictionary whose words are as long as `start`, `WordLadder` returns, and
its value is non-zero exactly when `end_` is reachable in the program's graph. -/
theorem WordLadder_reach (start end_ : GoString) (dic : List GoString)
    (hlen : ∀ w ∈ dic, w.length = start.length) :
    ∃ r, WordLadder start end_ dic = .ok r ∧ (r ≠ 0 ↔ Reach dic start end_) := by
  obtain ⟨g, hb, hg⟩ := buildGraph_equal_length start dic hlen
  obtain ⟨r, g1, hs, hr⟩ := bfsMinTransformation_spec hg end_
  exact ⟨r, WordLadder_eq start end_ dic g g1 r hb hs, hr⟩

/-- When the end word is linked to `start`, the first iteration sets `min` to one
and no later iteration changes it. -/
theorem bfsMinTransformation_neighbour {start : GoString} {dic : List GoString} {g : Graph}
    (hg : GraphOK start dic g) (endWord : GoString) (he : endWord ∈ edgesOf start dic) :
    ∃ g1, bfsMinTransformation g start endWord = .ok (1, g1) := by
  have h0 : SearchInv start endWord dic start [] (bfsInit g start) := bfsInit_inv hg
  have hq0 : (bfsInit g start).queue = start :: [] := rfl
  obtain ⟨⟨d, hl⟩, hi⟩ := h0.dequeue hq0
  obtain ⟨s2, e2, i2, d2, _, v2, _, q2⟩ := visitEdges_inv _ _ hi (by simp)
  have d2a : s2.distance = 1 := d2
  have hes : endWord ∈ s2.seen := v2 endWord he
  have hm2 : s2.min = 1 := q2 (by simp [bfsInit]) hes
  obtain ⟨s3, e3, _, _, _, p3⟩ := bfsLoop_inv g.length hg.seen_bound g.length s2 i2.retarget
    (by omega)
  refine ⟨s3.graph, ?_⟩
  have hrun : bfsLoop endWord (g.length + 1) (bfsInit g start) = .ok s3 := by
    rw [bfsLoop_succ endWord g.length _ start [] _ hq0 hl, bind_eq_ok]
    exact ⟨s2, e2, e3⟩
  simp only [bfsMinTransformation, hrun]
  show Except.ok (s3.min, s3.graph) = _
  rw [p3 hes, hm2]

/-! ## Chains of the specification and edges of the program -/

theorem Reach.mem_dic {dic : List GoString} {start v : GoString} (h : Reach dic start v) :
    v ∈ dic := by
  cases h with
  | first hv => exact ((mem_edgesOf _ _ _).1 hv).1
  | next _ hv => exact ((mem_edgesOf _ _ _).1 hv).1

/-- On ASCII words of the dictionary's length, the program links `u` to `w`
exactly when `w` is a dictionary word one position apart from `u`. -/
theorem mem_edgesOf_ascii (u w : GoString) (dic : List GoString) (hu : isASCII u)
    (hlen : ∀ x ∈ dic, x.length = u.length) :
    w ∈ edgesOf u dic ↔ w ∈ dic ∧ oneApart u w := by
  rw [mem_edgesOf]
  constructor
  · rintro ⟨hw, hd⟩
    have hl : u.length = w.length := (hlen w hw).symm
    rw [isDifferentByOneLetter_ascii u w hu hl] at hd
    refine ⟨hw, hl, ?_⟩
    simpa using hd
  · rintro ⟨hw, hl, hc⟩
    refine ⟨hw, ?_⟩
    rw [isDifferentByOneLetter_ascii u w hu hl]
    simp [hc]

/-- On ASCII words of one length, reachability in the program's graph is the
existence of a chain of at least one step. -/
theorem reach_iff_ladder (start v : GoString) (dic : List GoString) (hs : isASCII start)
    (hdic : ∀ w ∈ dic, isASCII w ∧ w.length = start.length) :
    Reach dic start v ↔ ∃ k, 1 ≤ k ∧ Ladder dic start v k := by
  have hlen : ∀ u, u = start ∨ u ∈ dic → ∀ x ∈ dic, x.length = u.length := by
    intro u hu x hx
    rcases hu with hu | hu
    · rw [hu]; exact (hdic x hx).2
    · rw [(hdic x hx).2, (hdic u hu).2]
  have hasc : ∀ u, u = start ∨ u ∈ dic → isASCII u := by
    intro u hu
    rcases hu with hu | hu
    · rw [hu]; exact hs
    · exact (hdic u hu).1
  constructor
  · intro h
    induction h with
    | first hv =>
      obtain ⟨h1, h2⟩ := (mem_edgesOf_ascii start _ dic hs (hlen start (Or.inl rfl))).1 hv
      exact ⟨1, Nat.le_refl 1, Ladder.step (Ladder.refl start) h1 h2⟩
    | @next u w hu hv ih =>
      obtain ⟨k, _, hk⟩ := ih
      have hud : u = start ∨ u ∈ dic := Or.inr hu.mem_dic
      obtain ⟨h1, h2⟩ := (mem_edgesOf_ascii u w dic (hasc u hud) (hlen u hud)).1 hv
      exact ⟨k + 1, by omega, Ladder.step hk h1 h2⟩
  · rintro ⟨k, hk, hl⟩
    have key : ∀ (a b : GoString) (n : Nat), Ladder dic a b n → a = start →
        (n = 0 ∧ b = start) ∨ Reach dic start b := by
      intro a b n hab
      induction hab with
      | refl => intro e; exact Or.inl ⟨rfl, e⟩
      | @step b c n hprev hw h1 ih =>
        intro e
        right
        rcases ih e with ⟨_, hb⟩ | hr
        · rw [hb] at h1
          exact Reach.first
            ((mem_edgesOf_ascii start c dic hs (hlen start (Or.inl rfl))).2 ⟨hw, h1⟩)
        · have hud : b = start ∨ b ∈ dic := Or.inr hr.mem_dic
          exact Reach.next hr
            ((mem_edgesOf_ascii b c dic (hasc b hud) (hlen b hud)).2 ⟨hw, h1⟩)
    rcases key start v k hl rfl with ⟨h0, _⟩ | hr
    · omega
    · exact hr

/-- On ASCII words of one length `WordLadder` returns, and it returns zero
exactly when no chain of at least one step leads from `start` to `end_`. -/
theorem WordLadder_zero_iff (start end_ : GoString) (dic : List GoString) (hs : isASCII start)
    (hdic : ∀ w ∈ dic, isASCII w ∧ w.length = start.length) :
    ∃ r, WordLadder start end_ dic = .ok r ∧
      (r = 0 ↔ ¬ ∃ k, 1 ≤ k ∧ Ladder dic start end_ k) := by
  obtain ⟨r, h1, h2⟩ := WordLadder_reach start end_ dic (fun w hw => (hdic w hw).2)
  refine ⟨r, h1, ?_⟩
  rw [← reach_iff_ladder start end_ dic hs hdic, ← h2]
  simp

/-- On ASCII words of one length, an end word of the dictionary one position
apart from `start` gives the result one. -/
theorem WordLadder_neighbour (start end_ : GoString) (dic : List GoString) (hs : isASCII start)
    (hdic : ∀ w ∈ dic, isASCII w ∧ w.length = start.length) (he : end_ ∈ dic)
    (h1 : oneApart start end_) : WordLadder start end_ dic = .ok 1 := by
  obtain ⟨g, hb, hg⟩ := buildGraph_equal_length start dic (fun w hw => (hdic w hw).2)
  have hE : end_ ∈ edgesOf start dic :=
    (mem_edgesOf_ascii start end_ dic hs (fun x hx => (hdic x hx).2)).2 ⟨he, h1⟩
  obtain ⟨g1, hr⟩ := bfsMinTransformation_neighbour hg end_ hE
  exact WordLadder_eq start end_ dic g g1 1 hb hr

theorem isDifferentByOneLetter_comm_ascii (a b : GoString) (ha : isASCII a) (hb : isASCII b)
    (hab : a.length = b.length) :
    isDifferentByOneLetter a b = isDifferentByOneLetter b a := by
  rw [isDifferentByOneLetter_ascii a b ha hab, isDifferentByOneLetter_ascii b a hb hab.symm,
    diffCount_comm a b]

theorem oneApart_comm (a b : GoString) : oneApart a b ↔ oneApart b a := by
  unfold oneApart
  rw [diffCount_comm a b]
  constructor <;> rintro ⟨h1, h2⟩ <;> exact ⟨h1.symm, h2⟩

/-- The last step of a chain of at least one step: its last word is a dictionary
word, one position apart from the start or from a dictionary word. -/
theorem Ladder.last_step {dic : List GoString} {u w : GoString} {k : Nat}
    (h : Ladder dic u w k) (hk : 1 ≤ k) :
    w ∈ dic ∧ ∃ v, (v = u ∨ v ∈ dic) ∧ oneApart v w := by
  cases h with
  | refl => omega
  | @step v _ n hprev hw h1 =>
    refine ⟨hw, v, ?_, h1⟩
    cases hprev with
    | refl => exact Or.inl rfl
    | step _ hv _ => exact Or.inr hv

/-- A lower bound on the length of chains: a rank that is zero at the start and
grows by at most one along every possible step bounds the number of steps from
below. -/
theorem Ladder.rank_le {dic : List GoString} {start w : GoString} {k : Nat}
    (rank : GoString → Nat) (h0 : rank start = 0)
    (hstep : ∀ v ∈ start :: dic, ∀ x ∈ dic, oneApart v x → rank x ≤ rank v + 1)
    (h : Ladder dic start w k) : rank w ≤ k ∧ w ∈ start :: dic := by
  induction h with
  | refl => exact ⟨by omega, by simp⟩
  | @step v x n _ hx h1 ih =>
    have := hstep v ih.2 x hx h1
    exact ⟨by omega, List.mem_cons_of_mem _ hx⟩

/-! ## A word against itself -/

theorem isDifferentLoop_self (w : GoString) : ∀ (is : List Nat) (oneDiff : Bool),
    (∀ i ∈ is, i < w.length) → isDifferentLoop w w is oneDiff = .ok oneDiff := by
  intro is
  induction is with
  | nil => intro oneDiff _; rfl
  | cons i rest ih =>
    intro oneDiff h
    have hi : i < w.length := h i (by simp)
    simp only [isDifferentLoop, byteAt_lt w i hi]
    show (if w.get ⟨i, hi⟩ ≠ w.get ⟨i, hi⟩ then
        (if oneDiff = true then Except.ok false else isDifferentLoop w w rest true)
      else isDifferentLoop w w rest oneDiff) = Except.ok oneDiff
    simp only [ne_eq, not_true_eq_false, if_false]
    exact ih oneDiff (fun j hj => h j (by simp [hj]))

/-- A word never differs from itself by one letter, whatever its bytes. -/
theorem isDifferentByOneLetter_self (w : GoString) :
    isDifferentByOneLetter w w = .ok false :=
  isDifferentLoop_self w _ false (fun i hi => rangeIndices_lt w i hi)

theorem not_mem_edgesOf_self (w : GoString) (dic : List GoString) : w ∉ edgesOf w dic := by
  intro h
  have := ((mem_edgesOf w dic w).1 h).2
  rw [isDifferentByOneLetter_self] at this
  simp at this

/-! ## The search, step by step -/

theorem visitEdge_seen (endWord : GoString) (s : bfsState) (v : GoString) (h : v ∈ s.seen) :
    visitEdge endWord s v = .ok s := by
  simp [visitEdge, h]

theorem visitEdge_new (endWord : GoString) (s s1 : bfsState) (v : GoString) (h : v ∉ s.seen)
    (he : visitEdge endWord s v = .ok s1) :
    ∃ x, lookupV s.graph v = some x ∧
      s1 = { graph := assign s.graph v { x with distance := s.distance },
             min := (if x.word = endWord ∧ (s.distance < s.min ∨ s.min = 0) then s.distance
               else s.min),
             distance := s.distance,
             seen := v :: s.seen,
             queue := s.queue ++ [v] } := by
  simp only [visitEdge, h, if_false] at he
  cases hl : lookupV s.graph v with
  | none => simp [hl] at he
  | some x =>
    simp only [hl] at he
    exact ⟨x, rfl, (Except.ok.inj he).symm⟩

theorem step_pending (endWord : GoString) (c : bfsConfig) (v : GoString) (vs : List GoString)
    (s1 : bfsState) (hp : c.pending = v :: vs) (hv : visitEdge endWord c.state v = .ok s1) :
    step endWord c = .ok (some
      { state := s1, pending := vs,
        pushed := if v ∈ c.state.seen then c.pushed else c.pushed ++ [v],
        dequeued := c.dequeued }) := by
  simp only [step, hp, hv]
  rfl

theorem step_dequeue (endWord : GoString) (c : bfsConfig) (tmp : GoString)
    (rest : List GoString) (t : vertex) (hp : c.pending = []) (hq : c.state.queue = tmp :: rest)
    (hl : lookupV c.state.graph tmp = some t) :
    step endWord c = .ok (some
      { state := { c.state with queue := rest, distance := c.state.distance + 1 },
        pending := t.edges, pushed := c.pushed, dequeued := c.dequeued ++ [tmp] }) := by
  simp only [step, hp, hq, hl]

theorem step_done (endWord : GoString) (c : bfsConfig) (hp : c.pending = [])
    (hq : c.state.queue = []) : step endWord c = .ok none := by
  simp only [step, hp, hq]

theorem steps_succ_some (endWord : GoString) (n : Nat) (c c1 : bfsConfig)
    (h : step endWord c = .ok (some c1)) : steps endWord (n + 1) c = steps endWord n c1 := by
  simp only [steps, h]
  rfl

theorem steps_of_done (endWord : GoString) (c : bfsConfig) (h : step endWord c = .ok none) :
    ∀ n, steps endWord n c = .ok c := by
  intro n
  cases n with
  | zero => rfl
  | succ m =>
    simp only [steps, h]
    rfl

/-- Runs compose. -/
theorem steps_add (endWord : GoString) : ∀ (n m : Nat) (c c1 c2 : bfsConfig),
    steps endWord n c = .ok c1 → steps endWord m c1 = .ok c2 →
    steps endWord (n + m) c = .ok c2 := by
  intro n
  induction n with
  | zero =>
    intro m c c1 c2 h1 h2
    have : c1 = c := (Except.ok.inj h1).symm
    subst this
    simpa using h2
  | succ k ih =>
    intro m c c1 c2 h1 h2
    cases hs : step endWord c with
    | error e => simp [steps, hs, bind, Except.bind] at h1
    | ok o =>
      cases o with
      | none =>
        rw [steps_of_done endWord c hs] at h1
        have : c1 = c := (Except.ok.inj h1).symm
        subst this
        rw [steps_of_done endWord c1 hs] at h2
        rw [steps_of_done endWord c1 hs]
        exact h2
      | some c3 =>
        rw [steps_succ_some endWord k c c3 hs] at h1
        have e : k + 1 + m = (k + m) + 1 := by omega
        rw [e, steps_succ_some endWord (k + m) c c3 hs]
        exact ih m c3 c1 c2 h1 h2

theorem bfsStart_inv {start endWord : GoString} {dic : List GoString} {g : Graph}
    (hg : GraphOK start dic g) : ConfigInv start endWord dic (bfsStart g start) where
  search := bfsInit_inv hg
  counter := rfl
  pend := fun h => absurd rfl h
  fifo := rfl
  pushSeen := rfl
  field := by intro v hv; simp [bfsStart, bfsInit] at hv
  tmpPath := fun h => absurd rfl h
  minField := by intro hv; simp [bfsStart, bfsInit] at hv

/-- Lines 43-45 keep the invariant of the moments. -/
theorem ConfigInv.afterDequeue {start endWord : GoString} {dic : List GoString} {c : bfsConfig}
    {tmp : GoString} {rest : List GoString}
    (h : ConfigInv start endWord dic c) (hp : c.pending = [])
    (hq : c.state.queue = tmp :: rest) :
    ∃ c1, step endWord c = .ok (some c1) ∧ ConfigInv start endWord dic c1 ∧
      c1.state.seen = c.state.seen ∧ c1.state.min = c.state.min ∧
      c1.dequeued = c.dequeued ++ [tmp] ∧ c1.pushed = c.pushed := by
  have hs := h.search
  rw [hp] at hs
  obtain ⟨⟨d, hl⟩, hi⟩ := hs.retarget.dequeue hq
  have htq : tmp = start ∨ tmp ∈ c.state.seen := hs.queueOK tmp (by simp [hq])
  refine ⟨{ state := { c.state with queue := rest, distance := c.state.distance + 1 },
            pending := edgesOf tmp dic, pushed := c.pushed,
            dequeued := c.dequeued ++ [tmp] },
    step_dequeue endWord c tmp rest _ hp hq hl, ?_, rfl, rfl, rfl, rfl⟩
  exact
    { search := by
        show SearchInv start endWord dic ((c.dequeued ++ [tmp]).getLastD start)
          (edgesOf tmp dic) _
        rw [List.getLastD_concat]
        exact hi
      counter := by
        show c.state.distance + 1 = (c.dequeued ++ [tmp]).length
        rw [h.counter]
        simp
      pend := by intro _; simp
      fifo := by
        show c.pushed = (c.dequeued ++ [tmp]) ++ rest
        rw [h.fifo, hq]
        simp
      pushSeen := h.pushSeen
      field := by
        intro v hv
        obtain ⟨x, k, h1, h2, h3, h4, h5⟩ := h.field v hv
        exact ⟨x, k, h1, h2, h3, Nat.le_succ_of_le h4, h5⟩
      tmpPath := by
        intro _
        show ∃ k, Path dic start ((c.dequeued ++ [tmp]).getLastD start) k ∧
          k + 1 ≤ c.state.distance + 1
        rw [List.getLastD_concat]
        rcases htq with ht | ht
        · exact ⟨0, ht ▸ Path.zero, by omega⟩
        · obtain ⟨x, k, _, _, h3, h4, h5⟩ := h.field tmp ht
          exact ⟨k, h5, by omega⟩
      minField := h.minField }

/-- Lines 47-55 for one pending edge keep the invariant of the moments. -/
theorem ConfigInv.visit {start endWord : GoString} {dic : List GoString} {c : bfsConfig}
    {v : GoString} {vs : List GoString}
    (h : ConfigInv start endWord dic c) (hp : c.pending = v :: vs) :
    ∃ c1, step endWord c = .ok (some c1) ∧ ConfigInv start endWord dic c1 ∧
      (∀ x ∈ c.state.seen, x ∈ c1.state.seen) ∧
      (endWord ∈ c.state.seen → c1.state.min = c.state.min) ∧
      (endWord ∉ c.state.seen → endWord ∈ c1.state.seen →
        c1.state.min = c.state.distance) ∧
      c1.dequeued = c.dequeued ∧
      (v ∈ c.state.seen → c1.pushed = c.pushed ∧ c1.state = c.state) ∧
      (v ∉ c.state.seen → c1.pushed = c.pushed ++ [v] ∧ c1.state.seen = v :: c.state.seen) := by
  have hs := h.search
  rw [hp] at hs
  have hdq : c.dequeued ≠ [] := h.pend (by simp [hp])
  have hd : 1 ≤ c.state.distance := by
    rw [h.counter]
    exact List.length_pos.2 hdq
  obtain ⟨s1, e1, i1, d1, m1, _, p1, q1⟩ := visitEdge_inv hs hd
  by_cases hv : v ∈ c.state.seen
  · have hs1 : s1 = c.state := by
      rw [visitEdge_seen endWord c.state v hv] at e1
      exact (Except.ok.inj e1).symm
    subst hs1
    refine ⟨{ state := c.state, pending := vs, pushed := c.pushed, dequeued := c.dequeued },
      ?_, ?_, m1, p1, q1, rfl, fun _ => ⟨rfl, rfl⟩, fun hn => absurd hv hn⟩
    · rw [step_pending endWord c v vs c.state hp e1]
      simp [hv]
    · exact
        { search := i1
          counter := h.counter
          pend := fun _ => hdq
          fifo := h.fifo
          pushSeen := h.pushSeen
          field := h.field
          tmpPath := h.tmpPath
          minField := h.minField }
  · obtain ⟨x, hl, hs1⟩ := visitEdge_new endWord c.state s1 v hv e1
    have hvE : v ∈ edgesOf (c.dequeued.getLastD start) dic := hs.vsOK v (by simp)
    have hvD : v ∈ dic := ((mem_edgesOf _ dic v).1 hvE).1
    obtain ⟨d, hl1⟩ := hs.graphOK v (Or.inr hvD)
    have hx : x = { word := v, edges := edgesOf v dic, distance := d } := by
      rw [hl] at hl1
      exact Option.some.inj hl1
    have hmin0 : endWord ∉ c.state.seen → c.state.min = 0 := by
      intro he
      by_contra hc
      exact he (hs.minOK.1 hc)
    have hseen1 : s1.seen = v :: c.state.seen := by rw [hs1]
    have hqueue1 : s1.queue = c.state.queue ++ [v] := by rw [hs1]
    have hgraph1 : s1.graph = assign c.state.graph v
        { word := v, edges := edgesOf v dic, distance := c.state.distance } := by
      rw [hs1, hx]
    refine ⟨{ state := s1, pending := vs, pushed := c.pushed ++ [v], dequeued := c.dequeued },
      ?_, ?_, m1, p1, q1, rfl, fun hn => absurd hn hv, fun _ => ⟨rfl, hseen1⟩⟩
    · rw [step_pending endWord c v vs s1 hp e1]
      simp [hv]
    · exact
        { search := i1
          counter := by
            show s1.distance = c.dequeued.length
            rw [d1, h.counter]
          pend := fun _ => hdq
          fifo := by
            show c.pushed ++ [v] = c.dequeued ++ s1.queue
            rw [hqueue1, h.fifo]
            simp
          pushSeen := by
            show c.pushed ++ [v] = start :: s1.seen.reverse
            rw [hseen1, h.pushSeen]
            simp
          field := by
            intro u hu
            show ∃ y k, lookupV s1.graph u = some y ∧ 1 ≤ k ∧ k ≤ y.distance ∧
              y.distance ≤ s1.distance ∧ Path dic start u k
            rw [hseen1] at hu
            rw [hgraph1, d1, lookupV_assign]
            simp only [List.mem_cons] at hu
            rcases hu with hu | hu
            · subst hu
              obtain ⟨k, hk1, hk2⟩ := h.tmpPath hdq
              exact ⟨{ word := u, edges := edgesOf u dic, distance := c.state.distance },
                k + 1, by simp, by omega, hk2, Nat.le_refl _, Path.next hk1 hvE⟩
            · have hne : ¬ v = u := fun e => hv (e ▸ hu)
              obtain ⟨y, k, h1, h2, h3, h4, h5⟩ := h.field u hu
              exact ⟨y, k, by simp [hne, h1], h2, h3, h4, h5⟩
          tmpPath := by
            intro _
            show ∃ k, Path dic start (c.dequeued.getLastD start) k ∧ k + 1 ≤ s1.distance
            rw [d1]
            exact h.tmpPath hdq
          minField := by
            intro he
            show ∃ y, lookupV s1.graph endWord = some y ∧ s1.min = y.distance
            have he1 : endWord ∈ v :: c.state.seen := hseen1 ▸ he
            rw [hgraph1, lookupV_assign]
            by_cases hve : v = endWord
            · have hnot : endWord ∉ c.state.seen := hve ▸ hv
              refine ⟨{ word := v, edges := edgesOf v dic, distance := c.state.distance },
                by simp [hve], ?_⟩
              exact q1 hnot he
            · simp only [List.mem_cons] at he1
              have he2 : endWord ∈ c.state.seen :=
                he1.resolve_left (fun e => hve e.symm)
              obtain ⟨y, h1, h2⟩ := h.minField he2
              exact ⟨y, by simp [hve, h1], by rw [p1 he2, h2]⟩ }

/-- Every step from a moment that satisfies the invariant succeeds: either the
search has ended, or the next moment satisfies the invariant again. `min` changes
only at the step that puts the end word into `seen`, and then becomes the
counter. -/
theorem step_inv {start endWord : GoString} {dic : List GoString} {c : bfsConfig}
    (h : ConfigInv start endWord dic c) :
    (c.pending = [] ∧ c.state.queue = [] ∧ step endWord c = .ok none) ∨
    ∃ c1, step endWord c = .ok (some c1) ∧ ConfigInv start endWord dic c1 ∧
      (∀ x ∈ c.state.seen, x ∈ c1.state.seen) ∧
      (endWord ∈ c.state.seen → c1.state.min = c.state.min) ∧
      (endWord ∉ c.state.seen → endWord ∈ c1.state.seen →
        c1.state.min = c.state.distance) := by
  obtain hp | ⟨v, vs, hp⟩ : c.pending = [] ∨ ∃ v vs, c.pending = v :: vs := by
    cases c.pending with
    | nil => exact Or.inl rfl
    | cons v vs => exact Or.inr ⟨v, vs, rfl⟩
  · obtain hq | ⟨tmp, rest, hq⟩ : c.state.queue = [] ∨ ∃ t r, c.state.queue = t :: r := by
      cases c.state.queue with
      | nil => exact Or.inl rfl
      | cons t r => exact Or.inr ⟨t, r, rfl⟩
    · exact Or.inl ⟨hp, hq, step_done endWord c hp hq⟩
    · obtain ⟨c1, e1, i1, hseen, hmin, _, _⟩ := h.afterDequeue hp hq
      refine Or.inr ⟨c1, e1, i1, ?_, fun _ => hmin, ?_⟩
      · intro x hx
        rw [hseen]
        exact hx
      · intro h1 h2
        rw [hseen] at h2
        exact absurd h2 h1
  · obtain ⟨c1, e1, i1, m1, p1, q1, _⟩ := h.visit hp
    exact Or.inr ⟨c1, e1, i1, m1, p1, q1⟩

/-- The invariant holds at every moment of a run that starts from a moment where it
holds, and the run never fails. -/
theorem steps_inv {start endWord : GoString} {dic : List GoString} :
    ∀ (n : Nat) (c : bfsConfig), ConfigInv start endWord dic c →
    ∃ c1, steps endWord n c = .ok c1 ∧ ConfigInv start endWord dic c1 ∧
      (∀ x ∈ c.state.seen, x ∈ c1.state.seen) ∧
      (endWord ∈ c.state.seen → c1.state.min = c.state.min) := by
  intro n
  induction n with
  | zero => intro c h; exact ⟨c, rfl, h, fun _ hx => hx, fun _ => rfl⟩
  | succ k ih =>
    intro c h
    rcases step_inv h with ⟨_, _, hdone⟩ | ⟨c1, e1, i1, m1, p1, _⟩
    · exact ⟨c, steps_of_done endWord c hdone _, h, fun _ hx => hx, fun _ => rfl⟩
    · obtain ⟨c2, e2, i2, m2, p2⟩ := ih c1 i1
      refine ⟨c2, ?_, i2, fun x hx => m2 x (m1 x hx), ?_⟩
      · rw [steps_succ_some endWord k c c1 e1]
        exact e2
      · intro he
        rw [p2 (m1 _ he), p1 he]

theorem steps_inv_of_eq {start endWord : GoString} {dic : List GoString} {n : Nat}
    {c c1 : bfsConfig} (h : ConfigInv start endWord dic c)
    (he : steps endWord n c = .ok c1) :
    ConfigInv start endWord dic c1 ∧ (∀ x ∈ c.state.seen, x ∈ c1.state.seen) ∧
      (endWord ∈ c.state.seen → c1.state.min = c.state.min) := by
  obtain ⟨c2, e2, i2, m2, p2⟩ := steps_inv n c h
  rw [he] at e2
  have : c1 = c2 := Except.ok.inj e2
  subst this
  exact ⟨i2, m2, p2⟩

/-- The steps over the pending edges are the inner loop. -/
theorem steps_visitEdges (endWord : GoString) : ∀ (vs : List GoString) (s s2 : bfsState),
    visitEdges endWord s vs = .ok s2 →
    ∀ c : bfsConfig, c.state = s → c.pending = vs →
    ∃ c1, steps endWord vs.length c = .ok c1 ∧ c1.state = s2 ∧ c1.pending = [] := by
  intro vs
  induction vs with
  | nil =>
    intro s s2 h c hc hp
    have : s2 = s := (Except.ok.inj h).symm
    exact ⟨c, rfl, by rw [hc, this], hp⟩
  | cons v rest ih =>
    intro s s2 h c hc hp
    simp only [visitEdges] at h
    obtain ⟨s1, h1, h2⟩ := (bind_eq_ok _ _ _).1 h
    subst hc
    obtain ⟨c0, hstep, hs0, hp0⟩ : ∃ c0, step endWord c = .ok (some c0) ∧ c0.state = s1 ∧
        c0.pending = rest := ⟨_, step_pending endWord c v rest s1 hp h1, rfl, rfl⟩
    obtain ⟨c1, e1, e2, e3⟩ := ih s1 s2 h2 c0 hs0 hp0
    refine ⟨c1, ?_, e2, e3⟩
    rw [List.length_cons, steps_succ_some endWord rest.length c c0 hstep]
    exact e1

/-- The steps from the head of the outer loop are the outer loop: what `bfsLoop`
returns is the state of a moment of the run at which the search has ended. -/
theorem steps_bfsLoop (endWord : GoString) : ∀ (fuel : Nat) (s s1 : bfsState),
    bfsLoop endWord fuel s = .ok s1 →
    ∀ c : bfsConfig, c.state = s → c.pending = [] →
    ∃ n c1, steps endWord n c = .ok c1 ∧ c1.state = s1 ∧ c1.pending = [] ∧
      c1.state.queue = [] := by
  intro fuel
  induction fuel with
  | zero =>
    intro s s1 h c hc hp
    cases hq : s.queue with
    | nil =>
      rw [bfsLoop_nil endWord 0 s hq] at h
      have : s1 = s := (Except.ok.inj h).symm
      exact ⟨0, c, rfl, by rw [hc, this], hp, by rw [hc, hq]⟩
    | cons tmp rest =>
      unfold bfsLoop at h
      simp [hq] at h
  | succ f ih =>
    intro s s1 h c hc hp
    cases hq : s.queue with
    | nil =>
      rw [bfsLoop_nil endWord _ s hq] at h
      have : s1 = s := (Except.ok.inj h).symm
      exact ⟨0, c, rfl, by rw [hc, this], hp, by rw [hc, hq]⟩
    | cons tmp rest =>
      cases hl : lookupV s.graph tmp with
      | none =>
        unfold bfsLoop at h
        simp [hq, hl] at h
      | some t =>
        rw [bfsLoop_succ endWord f s tmp rest t hq hl] at h
        obtain ⟨s2, h1, h2⟩ := (bind_eq_ok _ _ _).1 h
        subst hc
        obtain ⟨c0, hstep, hs0, hp0⟩ : ∃ c0, step endWord c = .ok (some c0) ∧
            c0.state = { c.state with queue := rest, distance := c.state.distance + 1 } ∧
            c0.pending = t.edges := ⟨_, step_dequeue endWord c tmp rest t hp hq hl, rfl, rfl⟩
        obtain ⟨c2, e1, e2, e3⟩ := steps_visitEdges endWord t.edges _ s2 h1 c0 hs0 hp0
        obtain ⟨n, c3, f1, f2, f3, f4⟩ := ih s2 s1 h2 c2 e2 e3
        refine ⟨(t.edges.length + n) + 1, c3, ?_, f2, f3, f4⟩
        rw [steps_succ_some endWord _ c c0 hstep]
        exact steps_add endWord _ _ _ _ _ e1 f1

/-- The search on the graph of `WordLadder`, as a run of steps: it reaches a moment
at which the loop has ended, every moment on the way satisfies the invariant, and
`bfsMinTransformation` returns the `min` of that last moment. -/
theorem search_run {start : GoString} {dic : List GoString} {g : Graph}
    (hg : GraphOK start dic g) (endWord : GoString) :
    ∃ n c, steps endWord n (bfsStart g start) = .ok c ∧ step endWord c = .ok none ∧
      ConfigInv start endWord dic c ∧
      bfsMinTransformation g start endWord = .ok (c.state.min, c.state.graph) := by
  obtain ⟨s1, e1, _, _, _, _⟩ := bfsLoop_inv g.length hg.seen_bound (g.length + 1)
    (bfsInit g start) (bfsInit_inv hg : SearchInv start endWord dic start [] _)
    (by simp [bfsInit])
  obtain ⟨n, c, f1, f2, f3, f4⟩ :=
    steps_bfsLoop endWord _ _ s1 e1 (bfsStart g start) rfl rfl
  refine ⟨n, c, f1, step_done endWord c f3 f4, (steps_inv_of_eq (bfsStart_inv hg) f1).1, ?_⟩
  simp only [bfsMinTransformation, e1]
  rw [f2]
  rfl

/-- A step only writes the `distance` field of the vertex it discovers: the vertex
stored under a word that is already in `seen` is left alone, and the word stays in
`seen`. -/
theorem step_frozen (endWord : GoString) (c c1 : bfsConfig) (u : GoString)
    (hu : u ∈ c.state.seen) (h : step endWord c = .ok (some c1)) :
    lookupV c1.state.graph u = lookupV c.state.graph u ∧ u ∈ c1.state.seen := by
  obtain hp | ⟨v, vs, hp⟩ : c.pending = [] ∨ ∃ v vs, c.pending = v :: vs := by
    cases c.pending with
    | nil => exact Or.inl rfl
    | cons v vs => exact Or.inr ⟨v, vs, rfl⟩
  · cases hq : c.state.queue with
    | nil =>
      rw [step_done endWord c hp hq] at h
      simp at h
    | cons tmp rest =>
      cases hl : lookupV c.state.graph tmp with
      | none =>
        simp [step, hp, hq, hl] at h
      | some t =>
        rw [step_dequeue endWord c tmp rest t hp hq hl] at h
        have hc : c1 = _ := (Option.some.inj (Except.ok.inj h)).symm
        rw [hc]
        exact ⟨rfl, hu⟩
  · cases hv : visitEdge endWord c.state v with
    | error e =>
      simp [step, hp, hv, bind, Except.bind] at h
    | ok s1 =>
      rw [step_pending endWord c v vs s1 hp hv] at h
      have hc : c1 = _ := (Option.some.inj (Except.ok.inj h)).symm
      rw [hc]
      show lookupV s1.graph u = lookupV c.state.graph u ∧ u ∈ s1.seen
      by_cases hvs : v ∈ c.state.seen
      · rw [visitEdge_seen endWord c.state v hvs] at hv
        have : s1 = c.state := (Except.ok.inj hv).symm
        rw [this]
        exact ⟨rfl, hu⟩
      · obtain ⟨x, _, hs1⟩ := visitEdge_new endWord c.state s1 v hvs hv
        have hne : ¬ v = u := fun e => hvs (e ▸ hu)
        rw [hs1]
        exact ⟨by simp [lookupV_assign, hne], List.mem_cons_of_mem _ hu⟩

theorem steps_frozen (endWord : GoString) : ∀ (n : Nat) (c c1 : bfsConfig) (u : GoString),
    u ∈ c.state.seen → steps endWord n c = .ok c1 →
    lookupV c1.state.graph u = lookupV c.state.graph u ∧ u ∈ c1.state.seen := by
  intro n
  induction n with
  | zero =>
    intro c c1 u hu h
    have : c1 = c := (Except.ok.inj h).symm
    rw [this]
    exact ⟨rfl, hu⟩
  | succ k ih =>
    intro c c1 u hu h
    cases hs : step endWord c with
    | error e => simp [steps, hs, bind, Except.bind] at h
    | ok o =>
      cases o with
      | none =>
        rw [steps_of_done endWord c hs] at h
        have : c1 = c := (Except.ok.inj h).symm
        rw [this]
        exact ⟨rfl, hu⟩
      | some c2 =>
        rw [steps_succ_some endWord k c c2 hs] at h
        obtain ⟨h1, h2⟩ := step_frozen endWord c c2 u hu hs
        obtain ⟨h3, h4⟩ := ih c2 c1 u h2 h
        exact ⟨by rw [h3, h1], h4⟩

/-- The step that discovers `v` writes the counter into the `distance` field of
`v`. -/
theorem step_discover (endWord : GoString) (c c1 : bfsConfig) (v : GoString)
    (vs : List GoString) (hp : c.pending = v :: vs) (hv : v ∉ c.state.seen)
    (h : step endWord c = .ok (some c1)) :
    v ∈ c1.state.seen ∧
      ∃ x, lookupV c1.state.graph v = some x ∧ x.distance = c.state.distance := by
  cases he : visitEdge endWord c.state v with
  | error e =>
    simp [step, hp, he, bind, Except.bind] at h
  | ok s1 =>
    rw [step_pending endWord c v vs s1 hp he] at h
    have hc : c1 = _ := (Option.some.inj (Except.ok.inj h)).symm
    rw [hc]
    obtain ⟨x, _, hs1⟩ := visitEdge_new endWord c.state s1 v hv he
    show v ∈ s1.seen ∧ ∃ y, lookupV s1.graph v = some y ∧ y.distance = c.state.distance
    rw [hs1]
    exact ⟨by simp, { x with distance := c.state.distance }, by simp [lookupV_assign], rfl⟩

/-- What a step does to the record of pushes: nothing, or one vertex that was not
in `seen` and now is. -/
theorem step_push {start endWord : GoString} {dic : List GoString} {c c1 : bfsConfig}
    (h : ConfigInv start endWord dic c) (hs : step endWord c = .ok (some c1)) :
    c1.pushed = c.pushed ∨
      ∃ v, v ∉ c.state.seen ∧ c1.state.seen = v :: c.state.seen ∧
        c1.pushed = c.pushed ++ [v] := by
  obtain hp | ⟨v, vs, hp⟩ : c.pending = [] ∨ ∃ v vs, c.pending = v :: vs := by
    cases c.pending with
    | nil => exact Or.inl rfl
    | cons v vs => exact Or.inr ⟨v, vs, rfl⟩
  · cases hq : c.state.queue with
    | nil =>
      rw [step_done endWord c hp hq] at hs
      simp at hs
    | cons tmp rest =>
      obtain ⟨c2, e2, _, _, _, _, hpush⟩ := h.afterDequeue hp hq
      rw [hs] at e2
      have : c1 = c2 := Option.some.inj (Except.ok.inj e2)
      rw [this]
      exact Or.inl hpush
  · obtain ⟨c2, e2, _, _, _, _, _, h1, h2⟩ := h.visit hp
    rw [hs] at e2
    have : c1 = c2 := Option.some.inj (Except.ok.inj e2)
    rw [this]
    by_cases hv : v ∈ c.state.seen
    · exact Or.inl (h1 hv).1
    · exact Or.inr ⟨v, hv, (h2 hv).2, (h2 hv).1⟩

/-- The step at which the end word enters `seen`: on a run to a moment where the
end word is in `seen`, from a moment where it is not, there is a first such step,
and the `min` of the last moment is the counter at that step. -/
theorem steps_first_seen {start endWord : GoString} {dic : List GoString} :
    ∀ (n : Nat) (c cf : bfsConfig), ConfigInv start endWord dic c →
    steps endWord n c = .ok cf → endWord ∈ cf.state.seen → endWord ∉ c.state.seen →
    ∃ m ca cb, steps endWord m c = .ok ca ∧ step endWord ca = .ok (some cb) ∧
      endWord ∉ ca.state.seen ∧ endWord ∈ cb.state.seen ∧
      ConfigInv start endWord dic ca ∧ cf.state.min = ca.state.distance := by
  intro n
  induction n with
  | zero =>
    intro c cf _ h h1 h2
    have : cf = c := (Except.ok.inj h).symm
    rw [this] at h1
    exact absurd h1 h2
  | succ k ih =>
    intro c cf hc h h1 h2
    rcases step_inv hc with ⟨_, _, hdone⟩ | ⟨c1, e1, i1, _, _, q1⟩
    · rw [steps_of_done endWord c hdone] at h
      have : cf = c := (Except.ok.inj h).symm
      rw [this] at h1
      exact absurd h1 h2
    · rw [steps_succ_some endWord k c c1 e1] at h
      by_cases he : endWord ∈ c1.state.seen
      · refine ⟨0, c, c1, rfl, e1, h2, he, hc, ?_⟩
        rw [(steps_inv_of_eq i1 h).2.2 he, q1 h2 he]
      · obtain ⟨m, ca, cb, f1, f2, f3, f4, f5, f6⟩ := ih c1 cf i1 h h1 he
        refine ⟨m + 1, ca, cb, ?_, f2, f3, f4, f5, f6⟩
        rw [steps_succ_some endWord m c c1 e1]
        exact f1

theorem Path.mem {dic : List GoString} {start v : GoString} {k : Nat}
    (h : Path dic start v k) : v = start ∨ v ∈ dic := by
  cases h with
  | zero => exact Or.inl rfl
  | next _ hv => exact Or.inr ((mem_edgesOf _ _ _).1 hv).1

/-- On ASCII words of one length a chain of edges of the program's graph is a
transformation chain of the same number of steps. -/
theorem Path.ladder {dic : List GoString} {start v : GoString} {k : Nat}
    (hs : isASCII start) (hdic : ∀ w ∈ dic, isASCII w ∧ w.length = start.length)
    (h : Path dic start v k) : Ladder dic start v k := by
  induction h with
  | zero => exact Ladder.refl start
  | @next u w n hu hw ih =>
    have hua : isASCII u := by
      rcases hu.mem with e | e
      · rw [e]; exact hs
      · exact (hdic u e).1
    have hlen : ∀ y ∈ dic, y.length = u.length := by
      intro y hy
      rcases hu.mem with e | e
      · rw [e]; exact (hdic y hy).2
      · rw [(hdic y hy).2, (hdic u e).2]
    obtain ⟨h1, h2⟩ := (mem_edgesOf_ascii u w dic hua hlen).1 hw
    exact Ladder.step ih h1 h2

/-- The value of `WordLadder` is the `min` of the last moment of the run of the
search on the graph it builds. -/
theorem WordLadder_run {start : GoString} {dic : List GoString} {g : Graph}
    (hb : buildGraph start dic = .ok g) (end_ : GoString) :
    ∃ n c, steps end_ n (bfsStart g start) = .ok c ∧ step end_ c = .ok none ∧
      c.pending = [] ∧ c.state.queue = [] ∧
      ConfigInv start end_ dic c ∧ WordLadder start end_ dic = .ok c.state.min := by
  obtain ⟨n, c, h1, h2, h3, h4⟩ := search_run (buildGraph_ok start dic g hb) end_
  have hpq : c.pending = [] ∧ c.state.queue = [] := by
    rcases step_inv h3 with ⟨hp, hq, _⟩ | ⟨c1, e1, _⟩
    · exact ⟨hp, hq⟩
    · rw [h2] at e1
      simp at e1
  exact ⟨n, c, h1, h2, hpq.1, hpq.2, h3, WordLadder_eq start end_ dic g _ _ hb h4⟩

/-! ## Repeated words in the dictionary -/

theorem mem_dedupFirst : ∀ (l : List GoString) (w : GoString), w ∈ dedupFirst l ↔ w ∈ l := by
  intro l
  induction l with
  | nil => intro w; simp [dedupFirst]
  | cons x xs ih =>
    intro w
    simp only [dedupFirst, List.mem_cons, List.mem_filter, ih, decide_eq_true_eq]
    constructor
    · rintro (h | ⟨h, _⟩)
      · exact Or.inl h
      · exact Or.inr h
    · rintro (h | h)
      · exact Or.inl h
      · by_cases e : w = x
        · exact Or.inl e
        · exact Or.inr ⟨h, e⟩

theorem dedupFirst_filter (p : GoString → Bool) : ∀ (l : List GoString),
    dedupFirst (l.filter p) = (dedupFirst l).filter p := by
  intro l
  induction l with
  | nil => simp [dedupFirst]
  | cons x xs ih =>
    by_cases hx : p x = true
    · simp only [List.filter_cons, hx, if_true, dedupFirst, ih, List.filter_filter]
      congr 1
      apply List.filter_congr
      intro y _
      exact Bool.and_comm _ _
    · simp only [List.filter_cons, hx, dedupFirst, ih, List.filter_filter]
      simp only [Bool.false_eq_true, if_false]
      rw [ih]
      apply List.filter_congr
      intro y _
      by_cases hy : p y = true
      · have hne : y ≠ x := fun e => hx (e ▸ hy)
        simp [hy, hne]
      · simp [hy]

theorem edgesOf_dedupFirst (w : GoString) (dic : List GoString) :
    edgesOf w (dedupFirst dic) = dedupFirst (edgesOf w dic) := by
  unfold edgesOf
  rw [dedupFirst_filter]

theorem visitEdge_mem (endWord : GoString) (s s1 : bfsState) (v : GoString)
    (h : visitEdge endWord s v = .ok s1) :
    v ∈ s1.seen ∧ ∀ u ∈ s.seen, u ∈ s1.seen := by
  by_cases hv : v ∈ s.seen
  · rw [visitEdge_seen endWord s v hv] at h
    have : s1 = s := (Except.ok.inj h).symm
    rw [this]
    exact ⟨hv, fun _ hu => hu⟩
  · obtain ⟨x, _, hs1⟩ := visitEdge_new endWord s s1 v hv h
    rw [hs1]
    exact ⟨by simp, fun u hu => List.mem_cons_of_mem _ hu⟩

/-- An edge to a vertex that is in `seen` can be left out of the inner loop. -/
theorem visitEdges_skip (endWord x : GoString) : ∀ (l : List GoString) (s : bfsState),
    x ∈ s.seen →
    visitEdges endWord s (l.filter (fun y => decide (y ≠ x))) = visitEdges endWord s l := by
  intro l
  induction l with
  | nil => intro s _; rfl
  | cons y rest ih =>
    intro s hx
    by_cases hy : y = x
    · subst hy
      simp only [List.filter_cons, ne_eq, not_true_eq_false, decide_False, Bool.false_eq_true,
        if_false, visitEdges, visitEdge_seen endWord s y hx]
      exact ih s hx
    · simp only [List.filter_cons, ne_eq, hy, not_false_eq_true, decide_True, if_true,
        visitEdges]
      cases hv : visitEdge endWord s y with
      | error e => rfl
      | ok s1 =>
        show visitEdges endWord s1 _ = visitEdges endWord s1 rest
        exact ih s1 ((visitEdge_mem endWord s s1 y hv).2 x hx)

/-- The inner loop over an edge list does the same as over the list without its
repeated later occurrences: a repeated edge leads to a vertex already in `seen`. -/
theorem visitEdges_dedupFirst (endWord : GoString) : ∀ (l : List GoString) (s : bfsState),
    visitEdges endWord s (dedupFirst l) = visitEdges endWord s l := by
  intro l
  induction l with
  | nil => intro s; rfl
  | cons x rest ih =>
    intro s
    simp only [dedupFirst, visitEdges]
    cases hv : visitEdge endWord s x with
    | error e => rfl
    | ok s1 =>
      show visitEdges endWord s1 _ = visitEdges endWord s1 rest
      rw [visitEdges_skip endWord x _ s1 (visitEdge_mem endWord s s1 x hv).1]
      exact ih s1

theorem ResultSim.bind {r r1 : Except GoError bfsState}
    {f f1 : bfsState → Except GoError bfsState} (h : ResultSim r r1)
    (hf : ∀ s s1, StateSim s s1 → ResultSim (f s) (f1 s1)) :
    ResultSim (r >>= f) (r1 >>= f1) := by
  cases r with
  | error e =>
    cases r1 with
    | error e1 => exact h
    | ok s1 => exact (h : False).elim
  | ok s =>
    cases r1 with
    | error e1 => exact (h : False).elim
    | ok s1 => exact hf s s1 h

theorem GraphSim.assign {g g1 : Graph} (h : GraphSim g g1) (v : GoString) (x y : vertex)
    (hw : y.word = x.word) (hd : y.distance = x.distance)
    (he : y.edges = dedupFirst x.edges) : GraphSim (assign g v x) (assign g1 v y) := by
  intro w
  rw [lookupV_assign, lookupV_assign]
  by_cases hvw : v = w
  · simp only [hvw, if_true]
    exact Or.inr ⟨x, y, rfl, rfl, hw, hd, he⟩
  · simp only [hvw, if_false]
    exact h w

/-- The body of the inner loop on corresponding states has corresponding
outcomes. -/
theorem visitEdge_sim (endWord : GoString) (s s1 : bfsState) (v : GoString)
    (h : StateSim s s1) : ResultSim (visitEdge endWord s v) (visitEdge endWord s1 v) := by
  obtain ⟨hmin, hdist, hseen, hqueue, hg⟩ := h
  by_cases hv : v ∈ s.seen
  · rw [visitEdge_seen endWord s v hv, visitEdge_seen endWord s1 v (hseen ▸ hv)]
    exact ⟨hmin, hdist, hseen, hqueue, hg⟩
  · have hv1 : v ∉ s1.seen := hseen ▸ hv
    rcases hg v with ⟨h1, h2⟩ | ⟨x, y, h1, h2, hw, hd, he⟩
    · simp only [visitEdge, hv, hv1, if_false, h1, h2]
      rfl
    · simp only [visitEdge, hv, hv1, if_false, h1, h2]
      refine ⟨?_, hdist, ?_, ?_, ?_⟩
      · show (if y.word = endWord ∧ (s1.distance < s1.min ∨ s1.min = 0) then s1.distance
          else s1.min) = (if x.word = endWord ∧ (s.distance < s.min ∨ s.min = 0)
            then s.distance else s.min)
        rw [hw, hdist, hmin]
      · show v :: s1.seen = v :: s.seen
        rw [hseen]
      · show s1.queue ++ [v] = s.queue ++ [v]
        rw [hqueue]
      · show GraphSim (assign s.graph v { x with distance := s.distance })
          (assign s1.graph v { y with distance := s1.distance })
        exact hg.assign v _ _ hw hdist he

theorem visitEdges_sim (endWord : GoString) : ∀ (vs : List GoString) (s s1 : bfsState),
    StateSim s s1 → ResultSim (visitEdges endWord s vs) (visitEdges endWord s1 vs) := by
  intro vs
  induction vs with
  | nil => intro s s1 h; exact h
  | cons v rest ih =>
    intro s s1 h
    simp only [visitEdges]
    exact (visitEdge_sim endWord s s1 v h).bind (fun a b hab => ih a b hab)

theorem bfsLoop_zero_cons (endWord : GoString) (s : bfsState) (tmp : GoString)
    (rest : List GoString) (hq : s.queue = tmp :: rest) :
    bfsLoop endWord 0 s = .error .fuelExhausted := by
  unfold bfsLoop
  simp [hq]

theorem bfsLoop_lookup_none (endWord : GoString) (n : Nat) (s : bfsState) (tmp : GoString)
    (rest : List GoString) (hq : s.queue = tmp :: rest) (hl : lookupV s.graph tmp = none) :
    bfsLoop endWord (n + 1) s = .error .nilDereference := by
  unfold bfsLoop
  simp [hq, hl]

/-- The search on corresponding states has corresponding outcomes: repeated edges
do not matter. -/
theorem bfsLoop_sim (endWord : GoString) : ∀ (fuel : Nat) (s s1 : bfsState),
    StateSim s s1 → ResultSim (bfsLoop endWord fuel s) (bfsLoop endWord fuel s1) := by
  intro fuel
  induction fuel with
  | zero =>
    intro s s1 h
    cases hq : s.queue with
    | nil =>
      rw [bfsLoop_nil endWord 0 s hq, bfsLoop_nil endWord 0 s1 (by rw [h.2.2.2.1, hq])]
      exact h
    | cons tmp rest =>
      rw [bfsLoop_zero_cons endWord s tmp rest hq,
        bfsLoop_zero_cons endWord s1 tmp rest (by rw [h.2.2.2.1, hq])]
      rfl
  | succ f ih =>
    intro s s1 h
    cases hq : s.queue with
    | nil =>
      rw [bfsLoop_nil endWord _ s hq, bfsLoop_nil endWord _ s1 (by rw [h.2.2.2.1, hq])]
      exact h
    | cons tmp rest =>
      have hq1 : s1.queue = tmp :: rest := by rw [h.2.2.2.1, hq]
      rcases h.2.2.2.2 tmp with ⟨h1, h2⟩ | ⟨x, y, h1, h2, _, _, he⟩
      · rw [bfsLoop_lookup_none endWord f s tmp rest hq h1,
          bfsLoop_lookup_none endWord f s1 tmp rest hq1 h2]
        rfl
      · rw [bfsLoop_succ endWord f s tmp rest x hq h1,
          bfsLoop_succ endWord f s1 tmp rest y hq1 h2, he, visitEdges_dedupFirst]
        apply ResultSim.bind
        · apply visitEdges_sim
          exact ⟨h.1, by show s1.distance + 1 = s.distance + 1; rw [h.2.1], h.2.2.1, rfl,
            h.2.2.2.2⟩
        · exact fun a b hab => ih a b hab

theorem WordLadder_of_buildGraph_ok (start end_ : GoString) (dic : List GoString) (g : Graph)
    (hb : buildGraph start dic = .ok g) :
    WordLadder start end_ dic =
      (bfsLoop end_ (g.length + 1) (bfsInit g start)).map bfsState.min := by
  simp only [WordLadder, WordLadderFrom, hb, bfsMinTransformation]
  show Except.map Prod.fst (bfsLoop end_ (g.length + 1) (bfsInit g start) >>= _) = _
  cases bfsLoop end_ (g.length + 1) (bfsInit g start) with
  | error e => rfl
  | ok s => rfl

theorem WordLadder_of_buildGraph_error (start end_ : GoString) (dic : List GoString)
    (e : GoError) (hb : buildGraph start dic = .error e) :
    WordLadder start end_ dic = .error e := by
  simp only [WordLadder, WordLadderFrom, hb]
  rfl

/-- `WordLadder` on a dictionary and on the dictionary without its repeated later
occurrences ends in the same way, for all inputs: with the same value, or with the
same panic. -/
theorem WordLadder_dedupFirst (start end_ : GoString) (dic : List GoString) :
    WordLadder start end_ (dedupFirst dic) = WordLadder start end_ dic := by
  by_cases ht : ∀ w1, w1 = start ∨ w1 ∈ dic → ∀ w2 ∈ dic,
      ∃ d, isDifferentByOneLetter w1 w2 = .ok d
  · obtain ⟨g, hb, hg⟩ := buildGraph_spec start dic ht
    obtain ⟨g1, hb1, hg1⟩ := buildGraph_spec start (dedupFirst dic) (by
      intro w1 hw1 w2 hw2
      exact ht w1 (hw1.imp id (mem_dedupFirst dic w1).1) w2 ((mem_dedupFirst dic w2).1 hw2))
    have hsim : GraphSim g g1 := by
      intro w
      by_cases hw : w = start ∨ w ∈ dic
      · refine Or.inr ⟨_, _, hg.lookup w hw,
          hg1.lookup w (hw.imp id (mem_dedupFirst dic w).2), rfl, rfl, ?_⟩
        exact edgesOf_dedupFirst w dic
      · left
        constructor
        · rw [lookupV_eq_none_iff, hg.mem_keys]
          exact hw
        · rw [lookupV_eq_none_iff, hg1.mem_keys]
          intro h
          exact hw (h.imp id (mem_dedupFirst dic w).1)
    have hlen : g1.length = g.length := by
      rw [← length_keys, ← length_keys]
      apply List.Perm.length_eq
      apply (List.perm_ext_iff_of_nodup hg1.nodup hg.nodup).2
      intro w
      rw [hg1.mem_keys, hg.mem_keys, mem_dedupFirst]
    rw [WordLadder_of_buildGraph_ok start end_ dic g hb,
      WordLadder_of_buildGraph_ok start end_ (dedupFirst dic) g1 hb1, hlen]
    have hrun := bfsLoop_sim end_ (g.length + 1) (bfsInit g start) (bfsInit g1 start)
      ⟨rfl, rfl, rfl, rfl, hsim⟩
    cases h1 : bfsLoop end_ (g.length + 1) (bfsInit g start) with
    | error e =>
      cases h2 : bfsLoop end_ (g.length + 1) (bfsInit g1 start) with
      | error e1 =>
        rw [h1, h2] at hrun
        have : e = e1 := hrun
        rw [this]
      | ok s1 =>
        rw [h1, h2] at hrun
        exact (hrun : False).elim
    | ok s =>
      cases h2 : bfsLoop end_ (g.length + 1) (bfsInit g1 start) with
      | error e1 =>
        rw [h1, h2] at hrun
        exact (hrun : False).elim
      | ok s1 =>
        rw [h1, h2] at hrun
        have : s1.min = s.min := hrun.1
        show Except.ok s1.min = Except.ok s.min
        rw [this]
  · have hne : ∀ g, buildGraph start dic ≠ .ok g := by
      intro g hg
      apply ht
      intro w1 hw1
      exact addAllEdges_total dic _ _ g hg w1 ((mem_keys_makeVertices start dic w1).2 hw1)
    have hne1 : ∀ g, buildGraph start (dedupFirst dic) ≠ .ok g := by
      intro g hg
      apply ht
      intro w1 hw1 w2 hw2
      exact addAllEdges_total (dedupFirst dic) _ _ g hg w1
        ((mem_keys_makeVertices start (dedupFirst dic) w1).2
          (hw1.imp id (mem_dedupFirst dic w1).2)) w2 ((mem_dedupFirst dic w2).2 hw2)
    rcases addAllEdges_cases dic (keys (makeVertices start dic)) (makeVertices start dic)
      (fun _ h => h) with ⟨g, hg⟩ | h1
    · exact absurd hg (hne g)
    · rcases addAllEdges_cases (dedupFirst dic) (keys (makeVertices start (dedupFirst dic)))
        (makeVertices start (dedupFirst dic)) (fun _ h => h) with ⟨g, hg⟩ | h2
      · exact absurd hg (hne1 g)
      · rw [WordLadder_of_buildGraph_error start end_ dic _ h1,
          WordLadder_of_buildGraph_error start end_ (dedupFirst dic) _ h2]

theorem dedupFirst_nodup : ∀ (l : List GoString), (dedupFirst l).Nodup := by
  intro l
  induction l with
  | nil => simp [dedupFirst]
  | cons x xs ih =>
    simp only [dedupFirst, List.nodup_cons, List.mem_filter, decide_eq_true_eq]
    exact ⟨fun h => h.2 rfl, ih.filter _⟩

/-- The record of pushes at every moment of the search: the start vertex, pushed on
line 41, followed by the vertices of `seen` in the order of their discovery, each of
them once. -/
theorem pushed_of_run {start : GoString} {dic : List GoString} {g : Graph}
    (hg : GraphOK start dic g) (endWord : GoString) (n : Nat) (c : bfsConfig)
    (h : steps endWord n (bfsStart g start) = .ok c) :
    c.pushed = start :: c.state.seen.reverse ∧ c.state.seen.Nodup := by
  have hi := (steps_inv_of_eq (bfsStart_inv hg) h).1
  exact ⟨hi.pushSeen, hi.search.seenNodup⟩

/-! ## The claims -/

/-- Claim C1, evaluated on its own example: for start "hit", end "cog" and the
dictionary "hot", "dot", "dog", "lot", "log", "cog" the chain hit, hot, dot, dog, cog
has 4 steps, no chain has fewer, and the program returns 5. The counter `distance`
counts dequeued vertices, not the steps of a chain: likewise for start "aa", end
"bd" and the dictionary "ab", "ac", "ad", "bd" the chain aa, ad, bd has 2 steps and
the program returns 4. -/
theorem C1_example_returns_five :
    (WordLadder [104, 105, 116] [99, 111, 103]
        [[104, 111, 116], [100, 111, 116], [100, 111, 103], [108, 111, 116], [108, 111, 103],
          [99, 111, 103]] = .ok 5 ∧
      Ladder [[104, 111, 116], [100, 111, 116], [100, 111, 103], [108, 111, 116],
          [108, 111, 103], [99, 111, 103]] [104, 105, 116] [99, 111, 103] 4 ∧
      ∀ k, Ladder [[104, 111, 116], [100, 111, 116], [100, 111, 103], [108, 111, 116],
          [108, 111, 103], [99, 111, 103]] [104, 105, 116] [99, 111, 103] k → 4 ≤ k) ∧
    (WordLadder [97, 97] [98, 100] [[97, 98], [97, 99], [97, 100], [98, 100]] = .ok 4 ∧
      Ladder [[97, 98], [97, 99], [97, 100], [98, 100]] [97, 97] [98, 100] 2) := by
  refine ⟨⟨by decide, ?_, ?_⟩, by decide, ?_⟩
  · exact Ladder.step (Ladder.step (Ladder.step (Ladder.step (Ladder.refl _)
      (w := [104, 111, 116]) (by decide) (by decide))
      (w := [100, 111, 116]) (by decide) (by decide))
      (w := [100, 111, 103]) (by decide) (by decide))
      (w := [99, 111, 103]) (by decide) (by decide)
  · intro k h
    exact (Ladder.rank_le
      (fun w => if w = [104, 105, 116] then 0 else if w = [104, 111, 116] then 1
        else if w = [100, 111, 116] ∨ w = [108, 111, 116] then 2
        else if w = [100, 111, 103] ∨ w = [108, 111, 103] then 3 else 4)
      (by decide) (by decide) h).1
  · exact Ladder.step (Ladder.step (Ladder.refl _)
      (w := [97, 100]) (by decide) (by decide))
      (w := [98, 100]) (by decide) (by decide)

/-- Claim C2 as stated fails on words with a two-byte letter: for the start word "é"
(bytes C3 A9), the end word "ê" (bytes C3 AA) and the dictionary "ê" a chain of one
step exists, and the program returns 0. The loop of the predicate visits byte 0
only, where the two words agree. -/
theorem C2_multibyte_chain_returns_zero :
    WordLadder [0xC3, 0xA9] [0xC3, 0xAA] [[0xC3, 0xAA]] = .ok 0 ∧
      ∃ k, 1 ≤ k ∧ Ladder [[0xC3, 0xAA]] [0xC3, 0xA9] [0xC3, 0xAA] k := by
  refine ⟨by decide, 1, Nat.le_refl 1, ?_⟩
  exact Ladder.step (Ladder.refl _) (by decide) (by decide)

/-- Claim C2, amended: for every start, end and dictionary where start and the
words of the dictionary are ASCII words of one length, `WordLadder` returns, and it
returns 0 exactly when no transformation chain of at least one step leads from
start to end; in particular it returns 0 whenever end is not in the dictionary. -/
theorem C2_zero_iff_no_chain_ascii (start end_ : GoString) (dic : List GoString)
    (hs : isASCII start) (hdic : ∀ w ∈ dic, isASCII w ∧ w.length = start.length) :
    ∃ r, WordLadder start end_ dic = .ok r ∧
      (r = 0 ↔ ¬ ∃ k, 1 ≤ k ∧ Ladder dic start end_ k) ∧ (end_ ∉ dic → r = 0) := by
  obtain ⟨r, h1, h2⟩ := WordLadder_zero_iff start end_ dic hs hdic
  refine ⟨r, h1, h2, ?_⟩
  intro he
  apply h2.2
  rintro ⟨k, hk, hl⟩
  exact he (hl.last_step hk).1

/-- Claim C2, amended, at start "hit", end "cog" and the dictionary "hot", "dot",
"dog", "lot", "log". -/
theorem C2_zero_iff_no_chain_ascii_witness :
    ∃ r, WordLadder [104, 105, 116] [99, 111, 103]
        [[104, 111, 116], [100, 111, 116], [100, 111, 103], [108, 111, 116], [108, 111, 103]]
        = .ok r ∧
      (r = 0 ↔ ¬ ∃ k, 1 ≤ k ∧ Ladder [[104, 111, 116], [100, 111, 116], [100, 111, 103],
        [108, 111, 116], [108, 111, 103]] [104, 105, 116] [99, 111, 103] k) ∧
      (([99, 111, 103] : GoString) ∉ ([[104, 111, 116], [100, 111, 116], [100, 111, 103],
        [108, 111, 116], [108, 111, 103]] : List GoString) → r = 0) :=
  C2_zero_iff_no_chain_ascii [104, 105, 116] [99, 111, 103]
    [[104, 111, 116], [100, 111, 116], [100, 111, 103], [108, 111, 116], [108, 111, 103]]
    (by decide) (by decide)

/-- Claim C3, evaluated where the start word is in the dictionary next to another
word: for start and end "aaa" and the dictionary "aaa", "aab" the program returns 2,
while for the dictionary "aaa" alone it returns 0. The start vertex is never put
into `seen`, so it is discovered again from "aab" and taken for the end word. -/
theorem C3_same_word_returns_two :
    WordLadder [97, 97, 97] [97, 97, 97] [[97, 97, 97], [97, 97, 98]] = .ok 2 ∧
      WordLadder [97, 97, 97] [97, 97, 97] [[97, 97, 97]] = .ok 0 := by
  decide

/-- Claim C4 as stated fails: for start "hit", end "cog" and the dictionary "hot",
"dot", "dog", "lot", "log" the two words differ, no chain connects them, and the
program returns the integer 0. -/
theorem C4_zero_without_equal_words :
    ([104, 105, 116] : GoString) ≠ [99, 111, 103] ∧
      (∀ k, ¬ Ladder [[104, 111, 116], [100, 111, 116], [100, 111, 103], [108, 111, 116],
          [108, 111, 103]] [104, 105, 116] [99, 111, 103] k) ∧
      WordLadder [104, 105, 116] [99, 111, 103]
        [[104, 111, 116], [100, 111, 116], [100, 111, 103], [108, 111, 116], [108, 111, 103]]
        = .ok 0 := by
  refine ⟨by decide, ?_, by decide⟩
  intro k h
  cases k with
  | zero =>
    cases h
  | succ n =>
    have := (h.last_step (by omega)).1
    revert this
    decide

/-- Claim C4, amended: for ASCII words of one length with start different from end
and no chain of one-letter substitutions through the dictionary from start to end,
`WordLadder` returns the integer 0, the value its documentation reserves for "no
transformation"; a result 0 therefore does not tell that start equals end. -/
theorem C4_unreachable_returns_zero (start end_ : GoString) (dic : List GoString)
    (hs : isASCII start) (hdic : ∀ w ∈ dic, isASCII w ∧ w.length = start.length)
    (_hne : start ≠ end_) (hno : ∀ k, 1 ≤ k → ¬ Ladder dic start end_ k) :
    WordLadder start end_ dic = .ok 0 := by
  obtain ⟨r, h1, h2⟩ := WordLadder_zero_iff start end_ dic hs hdic
  have hr : r = 0 := h2.2 (fun ⟨k, hk, hl⟩ => hno k hk hl)
  rw [h1, hr]

/-- Claim C4, amended, at start "abc", end "xyz" and the dictionary "abd", "abe",
"xyz": no word is one letter away from "xyz", and the result is 0. -/
theorem C4_unreachable_returns_zero_witness :
    WordLadder [97, 98, 99] [120, 121, 122] [[97, 98, 100], [97, 98, 101], [120, 121, 122]]
      = .ok 0 :=
  C4_unreachable_returns_zero [97, 98, 99] [120, 121, 122]
    [[97, 98, 100], [97, 98, 101], [120, 121, 122]] (by decide) (by decide) (by decide)
    (by
      intro k hk h
      obtain ⟨_, v, hv, h1⟩ := h.last_step hk
      have hv1 : v ∈ ([[97, 98, 99], [97, 98, 100], [97, 98, 101], [120, 121, 122]] :
          List GoString) := by
        rcases hv with hv | hv
        · simp [hv]
        · exact List.mem_cons_of_mem _ hv
      have hall : ∀ x ∈ ([[97, 98, 99], [97, 98, 100], [97, 98, 101], [120, 121, 122]] :
          List GoString), ¬ oneApart x [120, 121, 122] := by decide
      exact hall v hv1 h1)

/-- Claim C5 as stated fails on words with a two-byte letter: for start "sé" (bytes
73 C3 A9), end "sè" (bytes 73 C3 A8) and the dictionary "sè", the end word is in
the dictionary and one position apart from the start, and the program returns 0. -/
theorem C5_multibyte_neighbour_returns_zero :
    WordLadder [0x73, 0xC3, 0xA9] [0x73, 0xC3, 0xA8] [[0x73, 0xC3, 0xA8]] = .ok 0 ∧
      ([0x73, 0xC3, 0xA8] : GoString) ∈ ([[0x73, 0xC3, 0xA8]] : List GoString) ∧
      oneApart [0x73, 0xC3, 0xA9] [0x73, 0xC3, 0xA8] := by
  decide

/-- Claim C5, amended: for every start, end and dictionary where start and the
words of the dictionary are ASCII words of one length, if end is in the dictionary
and differs from start in exactly one position then `WordLadder` returns 1. -/
theorem C5_neighbour_returns_one_ascii (start end_ : GoString) (dic : List GoString)
    (hs : isASCII start) (hdic : ∀ w ∈ dic, isASCII w ∧ w.length = start.length)
    (he : end_ ∈ dic) (h1 : oneApart start end_) : WordLadder start end_ dic = .ok 1 :=
  WordLadder_neighbour start end_ dic hs hdic he h1

/-- Claim C5, amended, at start "abc", end "abd" and the dictionary "abd". -/
theorem C5_neighbour_returns_one_ascii_witness :
    WordLadder [97, 98, 99] [97, 98, 100] [[97, 98, 100]] = .ok 1 :=
  C5_neighbour_returns_one_ascii [97, 98, 99] [97, 98, 100] [[97, 98, 100]]
    (by decide) (by decide) (by decide) (by decide)

/-- Claim C6 as stated fails on "é" (bytes C3 A9) and "ê" (bytes C3 AA): the two
words have the same length and differ in exactly one position, and the predicate is
false. `for i := range a` yields the index 0 only, and the bytes at 0 agree. -/
theorem C6_multibyte_one_difference_is_false :
    isDifferentByOneLetter [0xC3, 0xA9] [0xC3, 0xAA] = .ok false ∧
      oneApart [0xC3, 0xA9] [0xC3, 0xAA] := by
  decide

/-- Claim C6, amended: for every ASCII word `a` and every word `b` of the same
length, `isDifferentByOneLetter(a, b)` returns, and it is true if and only if the
number of positions at which `a` and `b` differ is exactly 1. -/
theorem C6_one_difference_ascii (a b : GoString) (ha : isASCII a) (hab : a.length = b.length) :
    (∃ d, isDifferentByOneLetter a b = .ok d) ∧
      (isDifferentByOneLetter a b = .ok true ↔ diffCount a b = 1) := by
  rw [isDifferentByOneLetter_ascii a b ha hab]
  refine ⟨⟨_, rfl⟩, ?_⟩
  constructor
  · intro h
    simpa using h
  · intro h
    simp [h]

/-- Claim C6, amended, at "hit" and "hot". -/
theorem C6_one_difference_ascii_witness :
    (∃ d, isDifferentByOneLetter [104, 105, 116] [104, 111, 116] = .ok d) ∧
      (isDifferentByOneLetter [104, 105, 116] [104, 111, 116] = .ok true ↔
        diffCount [104, 105, 116] [104, 111, 116] = 1) :=
  C6_one_difference_ascii [104, 105, 116] [104, 111, 116] (by decide) (by decide)

/-- Claim C7 as stated fails on "é" (bytes C3 A9) and "ab" (bytes 61 62), both of
length 2: the predicate is true in one order and false in the other. Ranging over
"é" compares byte 0 only; ranging over "ab" compares bytes 0 and 1. -/
theorem C7_multibyte_not_symmetric :
    ([0xC3, 0xA9] : GoString).length = ([0x61, 0x62] : GoString).length ∧
      isDifferentByOneLetter [0xC3, 0xA9] [0x61, 0x62] = .ok true ∧
      isDifferentByOneLetter [0x61, 0x62] [0xC3, 0xA9] = .ok false := by
  decide

/-- Claim C7, amended: for every two ASCII words `a` and `b` of equal length,
`isDifferentByOneLetter(a, b) = isDifferentByOneLetter(b, a)`. -/
theorem C7_symmetric_ascii (a b : GoString) (ha : isASCII a) (hb : isASCII b)
    (hab : a.length = b.length) :
    isDifferentByOneLetter a b = isDifferentByOneLetter b a :=
  isDifferentByOneLetter_comm_ascii a b ha hb hab

/-- Claim C7, amended, at "dot" and "dog". -/
theorem C7_symmetric_ascii_witness :
    isDifferentByOneLetter [100, 111, 116] [100, 111, 103] =
      isDifferentByOneLetter [100, 111, 103] [100, 111, 116] :=
  C7_symmetric_ascii [100, 111, 116] [100, 111, 103] (by decide) (by decide) (by decide)

/-- Claim C8 as stated fails: for start "ab", end "zz" and the dictionary "a" the
call `isDifferentByOneLetter("ab", "a")` reads `b[1]` out of range, and `WordLadder`
panics. -/
theorem C8_shorter_word_panics :
    isDifferentByOneLetter [97, 98] [97] = .error .indexOutOfRange ∧
      WordLadder [97, 98] [122, 122] [[97]] = .error .indexOutOfRange := by
  decide

/-- Claim C8, amended: for every start, end and dictionary whose words all have the
length of `start` (whatever their bytes, and whatever the length of `end_`),
`WordLadder` completes and returns a value. -/
theorem C8_equal_length_returns (start end_ : GoString) (dic : List GoString)
    (hlen : ∀ w ∈ dic, w.length = start.length) :
    ∃ r, WordLadder start end_ dic = .ok r := by
  obtain ⟨r, h, _⟩ := WordLadder_reach start end_ dic hlen
  exact ⟨r, h⟩

/-- Claim C8, amended, at start "é", end "abc" and the dictionary "ê", "ab", "é". -/
theorem C8_equal_length_returns_witness :
    ∃ r, WordLadder [0xC3, 0xA9] [97, 98, 99] [[0xC3, 0xAA], [97, 98], [0xC3, 0xA9]] = .ok r :=
  C8_equal_length_returns [0xC3, 0xA9] [97, 98, 99] [[0xC3, 0xAA], [97, 98], [0xC3, 0xA9]]
    (by decide)

/-- Claim C9: when the graph construction of `WordLadder(start, end, dic)` completes,
the keys of the graph are exactly `start` and the words of `dic`, each key once, and
under each of these words `w` a vertex is stored whose word field is `w`. -/
theorem C9_graph_keys (start : GoString) (dic : List GoString) (g : Graph)
    (h : buildGraph start dic = .ok g) :
    (∀ w, w ∈ keys g ↔ w = start ∨ w ∈ dic) ∧ (keys g).Nodup ∧
      (∀ w ∈ keys g, ∃ v, lookupV g w = some v) ∧
      (∀ w v, lookupV g w = some v → v.word = w) := by
  have hg := buildGraph_ok start dic g h
  refine ⟨hg.mem_keys, hg.nodup, ?_, ?_⟩
  · intro w hw
    exact ⟨_, hg.lookup w ((hg.mem_keys w).1 hw)⟩
  · intro w v hv
    have hw : w ∈ keys g := by
      by_contra hc
      rw [(lookupV_eq_none_iff g w).2 hc] at hv
      exact Option.noConfusion hv
    rw [hg.lookup w ((hg.mem_keys w).1 hw)] at hv
    cases hv
    rfl

/-- Claim C9 at start "a" and the dictionary "b", "b": the construction completes
with a graph of the two keys "a" and "b". -/
theorem C9_graph_keys_witness :
    ∃ g, buildGraph [97] [[98], [98]] = .ok g ∧
      (∀ w, w ∈ keys g ↔ w = [97] ∨ w ∈ [[98], [98]]) ∧ (keys g).Nodup ∧
      (∀ w ∈ keys g, ∃ v, lookupV g w = some v) ∧
      (∀ w v, lookupV g w = some v → v.word = w) :=
  ⟨[([97], { word := [97], edges := [[98], [98]], distance := 0 }),
      ([98], { word := [98], edges := [], distance := 0 })],
    by decide, C9_graph_keys [97] [[98], [98]] _ (by decide)⟩

/-- Claim C10 as stated fails at the start vertex: for start "hit" and the
dictionary "hot" the words "hot" and "hit" are both keys of the graph and differ in
exactly one position; "hot" is in the edge list of "hit", but "hit" is not in the
edge list of "hot". -/
theorem C10_start_has_no_incoming_edge :
    ∃ g xu xv, buildGraph [104, 105, 116] [[104, 111, 116]] = .ok g ∧
      lookupV g [104, 111, 116] = some xu ∧ lookupV g [104, 105, 116] = some xv ∧
      oneApart [104, 111, 116] [104, 105, 116] ∧
      [104, 111, 116] ∈ xv.edges ∧ [104, 105, 116] ∉ xu.edges :=
  ⟨[([104, 105, 116], { word := [104, 105, 116], edges := [[104, 111, 116]], distance := 0 }),
      ([104, 111, 116], { word := [104, 111, 116], edges := [], distance := 0 })],
    { word := [104, 111, 116], edges := [], distance := 0 },
    { word := [104, 105, 116], edges := [[104, 111, 116]], distance := 0 },
    by decide, by decide, by decide, by decide, by decide, by decide⟩

/-- Claim C10, amended: after the graph construction of `WordLadder` on ASCII words
of one length, a word `v` occurs in the edge list of a vertex `u` if and only if `v`
is a word of the dictionary and differs from the word of `u` in exactly one
position; hence between two words of the dictionary adjacency is symmetric. Edges
lead to dictionary words only: a start word outside the dictionary is in no edge
list. -/
theorem C10_edges_ascii (start : GoString) (dic : List GoString) (g : Graph)
    (hs : isASCII start) (hdic : ∀ w ∈ dic, isASCII w ∧ w.length = start.length)
    (h : buildGraph start dic = .ok g) :
    (∀ u x, lookupV g u = some x → ∀ v, v ∈ x.edges ↔ v ∈ dic ∧ oneApart u v) ∧
      (∀ u v xu xv, u ∈ dic → v ∈ dic → lookupV g u = some xu → lookupV g v = some xv →
        (v ∈ xu.edges ↔ u ∈ xv.edges)) := by
  have hg := buildGraph_ok start dic g h
  have hedges : ∀ u x, lookupV g u = some x → ∀ v, v ∈ x.edges ↔ v ∈ dic ∧ oneApart u v := by
    intro u x hx v
    have hu : u = start ∨ u ∈ dic := by
      apply (hg.mem_keys u).1
      by_contra hc
      rw [(lookupV_eq_none_iff g u).2 hc] at hx
      exact Option.noConfusion hx
    rw [hg.lookup u hu] at hx
    cases hx
    have hua : isASCII u := by
      rcases hu with hu | hu
      · rw [hu]; exact hs
      · exact (hdic u hu).1
    have hlen : ∀ y ∈ dic, y.length = u.length := by
      intro y hy
      rcases hu with hu | hu
      · rw [hu]; exact (hdic y hy).2
      · rw [(hdic y hy).2, (hdic u hu).2]
    exact mem_edgesOf_ascii u v dic hua hlen
  refine ⟨hedges, ?_⟩
  intro u v xu xv hu hv hxu hxv
  rw [hedges u xu hxu v, hedges v xv hxv u, oneApart_comm u v]
  simp [hu, hv]

/-- Claim C10, amended, at start "hit" and the dictionary "hot", "dot". -/
theorem C10_edges_ascii_witness :
    ∃ g, buildGraph [104, 105, 116] [[104, 111, 116], [100, 111, 116]] = .ok g ∧
      (∀ u x, lookupV g u = some x →
        ∀ v, v ∈ x.edges ↔ v ∈ [[104, 111, 116], [100, 111, 116]] ∧ oneApart u v) ∧
      (∀ u v xu xv, u ∈ [[104, 111, 116], [100, 111, 116]] →
        v ∈ [[104, 111, 116], [100, 111, 116]] →
        lookupV g u = some xu → lookupV g v = some xv → (v ∈ xu.edges ↔ u ∈ xv.edges)) :=
  ⟨[([104, 105, 116], { word := [104, 105, 116], edges := [[104, 111, 116]], distance := 0 }),
      ([104, 111, 116], { word := [104, 111, 116], edges := [[100, 111, 116]], distance := 0 }),
      ([100, 111, 116], { word := [100, 111, 116], edges := [[104, 111, 116]], distance := 0 })],
    by decide,
    C10_edges_ascii [104, 105, 116] [[104, 111, 116], [100, 111, 116]] _ (by decide)
      (by decide) (by decide)⟩

/-- Claim C11: repeated words in the dictionary do not matter. For every start, end
and dictionary, `WordLadder(start, end, dic)` ends in the same way as
`WordLadder(start, end, dic1)`, where `dic1` is `dic` with every repeated later
occurrence of a word removed: `dic1` has the words of `dic`, each once, in the order
of their first occurrences. This holds for words of any lengths, a panic included. -/
theorem C11_duplicates_idempotent (start end_ : GoString) (dic : List GoString) :
    WordLadder start end_ dic = WordLadder start end_ (dedupFirst dic) ∧
      (dedupFirst dic).Nodup ∧ ∀ w, w ∈ dedupFirst dic ↔ w ∈ dic :=
  ⟨(WordLadder_dedupFirst start end_ dic).symm, dedupFirst_nodup dic, mem_dedupFirst dic⟩

/-- Claim C12: the value `WordLadder` returns, and the graph it leaves behind, do
not depend on what the package-level variable `graph` held before the call: two
runs from any two prior graphs agree, and both return what the call returns in a
fresh process. Whatever earlier calls did to `graph` is such a prior graph, so a
call made after them returns the same value as that call made first. -/
theorem C12_independent_of_prior_graph (g0 g1 : Graph) (start end_ : GoString)
    (dic : List GoString) :
    WordLadderFrom g0 start end_ dic = WordLadderFrom g1 start end_ dic ∧
      (WordLadderFrom g0 start end_ dic).map Prod.fst = WordLadder start end_ dic :=
  ⟨rfl, rfl⟩

/-- Claim C13: the value `WordLadder` returns depends on the order of the
dictionary: for start "aa" and end "cc" the dictionary "ab", "ac", "cc" gives 3 and
its permutation "ac", "ab", "cc" gives 2. -/
theorem C13_order_dependent :
    ∃ (start end_ : GoString) (dic dic1 : List GoString),
      (∀ w ∈ dic, w.length = start.length) ∧ dic1.Perm dic ∧
      WordLadder start end_ dic = .ok 3 ∧ WordLadder start end_ dic1 = .ok 2 :=
  ⟨[97, 97], [99, 99], [[97, 98], [97, 99], [99, 99]], [[97, 99], [97, 98], [99, 99]],
    by decide, List.Perm.swap _ _ _, by decide, by decide⟩

/-- Claim C14, evaluated where the start word is in the dictionary next to another
word: for start "ab", end "zz" and the dictionary "ab", "ac" the vertices passed to
`queue.PushBack` during the whole search are "ab", "ac", "ab" (at the end nothing is
pending and the queue is empty). The start vertex is pushed on line 41 without being
put into `seen`, so it is pushed a second time when "ac" is expanded. -/
theorem C14_start_pushed_twice :
    ((buildGraph [97, 98] [[97, 98], [97, 99]]).bind
        (fun g => steps [122, 122] 10 (bfsStart g [97, 98]))).map
        (fun c => (c.pushed, c.pending, c.state.queue))
      = .ok ([[97, 98], [97, 99], [97, 98]], [], []) := by
  decide

/-- Claim C15: at every moment of the search on the graph of `WordLadder` the
counter `distance` is the number of vertices dequeued so far; the step that
discovers a vertex writes the counter into its `distance` field, and the field
keeps that value from then on; once `min` is not zero it never changes; and a
non-zero result of `WordLadder` is the number of vertices dequeued up to and
including the one whose expansion puts the end word into `seen` for the first
time. -/
theorem C15_counter_and_fields (start end_ : GoString) (dic : List GoString) (g : Graph)
    (h : buildGraph start dic = .ok g) :
    (∀ n c, steps end_ n (bfsStart g start) = .ok c →
      c.state.distance = c.dequeued.length) ∧
    (∀ n c c1 v vs, steps end_ n (bfsStart g start) = .ok c → c.pending = v :: vs →
      v ∉ c.state.seen → step end_ c = .ok (some c1) →
      ∀ m c2, steps end_ m c1 = .ok c2 →
        ∃ x, lookupV c2.state.graph v = some x ∧ x.distance = c.state.distance) ∧
    (∀ n c m c2, steps end_ n (bfsStart g start) = .ok c → steps end_ m c = .ok c2 →
      c.state.min ≠ 0 → c2.state.min = c.state.min) ∧
    (∀ r, WordLadder start end_ dic = .ok r → r ≠ 0 →
      ∃ n c c1, steps end_ n (bfsStart g start) = .ok c ∧ step end_ c = .ok (some c1) ∧
        end_ ∉ c.state.seen ∧ end_ ∈ c1.state.seen ∧ r = c.dequeued.length) := by
  have h0 : ConfigInv start end_ dic (bfsStart g start) :=
    bfsStart_inv (buildGraph_ok start dic g h)
  refine ⟨?_, ?_, ?_, ?_⟩
  · intro n c hc
    exact (steps_inv_of_eq h0 hc).1.counter
  · intro n c c1 v vs _ hp hv hs m c2 hc2
    obtain ⟨hv1, x, hx, hd⟩ := step_discover end_ c c1 v vs hp hv hs
    exact ⟨x, by rw [(steps_frozen end_ m c1 c2 v hv1 hc2).1, hx], hd⟩
  · intro n c m c2 hc hc2 hmin
    have hi := (steps_inv_of_eq h0 hc).1
    exact (steps_inv_of_eq hi hc2).2.2 (hi.search.minOK.1 hmin)
  · intro r hr hne
    obtain ⟨n, cf, f1, _, _, _, f5, f6⟩ := WordLadder_run h end_
    rw [hr] at f6
    have hrm : r = cf.state.min := Except.ok.inj f6
    have hseen : end_ ∈ cf.state.seen := f5.search.minOK.1 (hrm ▸ hne)
    obtain ⟨m, ca, cb, e1, e2, e3, e4, e5, e6⟩ :=
      steps_first_seen n (bfsStart g start) cf h0 f1 hseen (by simp [bfsStart, bfsInit])
    exact ⟨m, ca, cb, e1, e2, e3, e4, by rw [hrm, e6, e5.counter]⟩

/-- Claim C15 at start "a", end "b" and the dictionary "b". -/
theorem C15_counter_and_fields_witness :
    ∃ g, buildGraph [97] [[98]] = .ok g ∧
      (∀ n c, steps [98] n (bfsStart g [97]) = .ok c →
        c.state.distance = c.dequeued.length) ∧
      (∀ n c c1 v vs, steps [98] n (bfsStart g [97]) = .ok c → c.pending = v :: vs →
        v ∉ c.state.seen → step [98] c = .ok (some c1) →
        ∀ m c2, steps [98] m c1 = .ok c2 →
          ∃ x, lookupV c2.state.graph v = some x ∧ x.distance = c.state.distance) ∧
      (∀ n c m c2, steps [98] n (bfsStart g [97]) = .ok c → steps [98] m c = .ok c2 →
        c.state.min ≠ 0 → c2.state.min = c.state.min) ∧
      (∀ r, WordLadder [97] [98] [[98]] = .ok r → r ≠ 0 →
        ∃ n c c1, steps [98] n (bfsStart g [97]) = .ok c ∧ step [98] c = .ok (some c1) ∧
          [98] ∉ c.state.seen ∧ [98] ∈ c1.state.seen ∧ r = c.dequeued.length) :=
  ⟨[([97], { word := [97], edges := [[98]], distance := 0 }),
      ([98], { word := [98], edges := [], distance := 0 })],
    by decide, C15_counter_and_fields [97] [98] [[98]] _ (by decide)⟩

/-- Claim C16: `isDifferentByOneLetter(w, w)` is false for every word `w`, and
after the graph construction of `WordLadder` no vertex occurs in its own edge
list. -/
theorem C16_no_self_loops (w start : GoString) (dic : List GoString) (g : Graph)
    (h : buildGraph start dic = .ok g) (u : GoString) (x : vertex)
    (hx : lookupV g u = some x) :
    isDifferentByOneLetter w w = .ok false ∧ u ∉ x.edges := by
  refine ⟨isDifferentByOneLetter_self w, ?_⟩
  have hg := buildGraph_ok start dic g h
  have hu : u = start ∨ u ∈ dic := by
    apply (hg.mem_keys u).1
    by_contra hc
    rw [(lookupV_eq_none_iff g u).2 hc] at hx
    exact Option.noConfusion hx
  rw [hg.lookup u hu] at hx
  cases hx
  exact not_mem_edgesOf_self u dic

/-- Claim C16 at the word "é" (bytes C3 A9) and the graph of start "hit" and the
dictionary "hot", "hit", at the vertex "hit". -/
theorem C16_no_self_loops_witness :
    isDifferentByOneLetter [0xC3, 0xA9] [0xC3, 0xA9] = .ok false ∧
      ([104, 105, 116] : GoString) ∉
        ({ word := [104, 105, 116], edges := [[104, 111, 116]], distance := 0 } : vertex).edges :=
  C16_no_self_loops [0xC3, 0xA9] [104, 105, 116] [[104, 111, 116], [104, 105, 116]]
    [([104, 105, 116], { word := [104, 105, 116], edges := [[104, 111, 116]], distance := 0 }),
      ([104, 111, 116], { word := [104, 111, 116], edges := [[104, 105, 116]], distance := 0 })]
    (by decide) [104, 105, 116] _ (by decide)

/-- Claim C17 as stated fails on words with a two-byte letter: for start "é" (bytes
C3 A9), end "ab" and the dictionary "ab" the program returns 1, and no
transformation chain leads from "é" to "ab", which differ in two positions. -/
theorem C17_multibyte_edge_without_chain :
    WordLadder [0xC3, 0xA9] [0x61, 0x62] [[0x61, 0x62]] = .ok 1 ∧
      ∀ k, 1 ≤ k → ¬ Ladder [[0x61, 0x62]] [0xC3, 0xA9] [0x61, 0x62] k := by
  refine ⟨by decide, ?_⟩
  intro k hk h
  obtain ⟨_, v, hv, h1⟩ := h.last_step hk
  have hv1 : v ∈ ([[0xC3, 0xA9], [0x61, 0x62]] : List GoString) := by
    rcases hv with hv | hv
    · simp [hv]
    · exact List.mem_cons_of_mem _ hv
  have hall : ∀ x ∈ ([[0xC3, 0xA9], [0x61, 0x62]] : List GoString),
      ¬ oneApart x [0x61, 0x62] := by decide
  exact hall v hv1 h1

/-- Claim C17, amended: for every start, end and dictionary where start and the
words of the dictionary are ASCII words of one length, if `WordLadder` returns a
non-zero value `r` then a transformation chain of at least one and at most `r`
steps leads from start to end; so `r` is not less than the number of steps of a
shortest chain. -/
theorem C17_never_under_reports_ascii (start end_ : GoString) (dic : List GoString)
    (hs : isASCII start) (hdic : ∀ w ∈ dic, isASCII w ∧ w.length = start.length)
    (r : Nat) (hr : WordLadder start end_ dic = .ok r) (hne : r ≠ 0) :
    ∃ k, 1 ≤ k ∧ k ≤ r ∧ Ladder dic start end_ k := by
  obtain ⟨g, hb, _⟩ := buildGraph_equal_length start dic (fun w hw => (hdic w hw).2)
  obtain ⟨n, cf, _, _, _, _, f5, f6⟩ := WordLadder_run hb end_
  rw [hr] at f6
  have hrm : r = cf.state.min := Except.ok.inj f6
  have hseen : end_ ∈ cf.state.seen := f5.search.minOK.1 (hrm ▸ hne)
  obtain ⟨x, hx, hmin⟩ := f5.minField hseen
  obtain ⟨y, k, hy, hk1, hk2, _, hpath⟩ := f5.field end_ hseen
  rw [hx] at hy
  have hxy : x = y := Option.some.inj hy
  exact ⟨k, hk1, by rw [hrm, hmin, hxy]; exact hk2, hpath.ladder hs hdic⟩

/-- Claim C17, amended, at start "hit", end "cog" and the dictionary "hot", "dot",
"dog", "lot", "log", "cog", where the result is 5. -/
theorem C17_never_under_reports_ascii_witness :
    ∃ k, 1 ≤ k ∧ k ≤ 5 ∧ Ladder [[104, 111, 116], [100, 111, 116], [100, 111, 103],
      [108, 111, 116], [108, 111, 103], [99, 111, 103]] [104, 105, 116] [99, 111, 103] k :=
  C17_never_under_reports_ascii [104, 105, 116] [99, 111, 103]
    [[104, 111, 116], [100, 111, 116], [100, 111, 103], [108, 111, 116], [108, 111, 103],
      [99, 111, 103]] (by decide) (by decide) 5 (by decide) (by decide)

/-- Claim C18: for every start, end and dictionary whose words have the length of
start, the search loop ends: the run reaches a moment with nothing pending and an
empty queue, after at most (number of distinct words among start and the
dictionary) + 1 dequeues, and `WordLadder` returns the `min` of that moment. After
the first push, a step pushes a vertex only when it is not in `seen`, and puts it
into `seen`. -/
theorem C18_search_terminates (start end_ : GoString) (dic : List GoString)
    (hlen : ∀ w ∈ dic, w.length = start.length) :
    ∃ g n c, buildGraph start dic = .ok g ∧ steps end_ n (bfsStart g start) = .ok c ∧
      step end_ c = .ok none ∧ c.pending = [] ∧ c.state.queue = [] ∧
      c.dequeued.length ≤ (start :: dic).dedup.length + 1 ∧
      WordLadder start end_ dic = .ok c.state.min ∧
      (bfsStart g start).pushed = [start] ∧
      ∀ m c1 c2, steps end_ m (bfsStart g start) = .ok c1 → step end_ c1 = .ok (some c2) →
        c2.pushed = c1.pushed ∨
          ∃ v, v ∉ c1.state.seen ∧ c2.state.seen = v :: c1.state.seen ∧
            c2.pushed = c1.pushed ++ [v] := by
  obtain ⟨g, hb, hg⟩ := buildGraph_equal_length start dic hlen
  obtain ⟨n, c, f1, f2, f3, f4, f5, f6⟩ := WordLadder_run hb end_
  refine ⟨g, n, c, hb, f1, f2, f3, f4, ?_, f6, rfl, ?_⟩
  · have hfifo := f5.fifo
    rw [f4, List.append_nil, f5.pushSeen] at hfifo
    have hsub : c.state.seen.length ≤ (start :: dic).dedup.length := by
      apply List.Subperm.length_le
      apply List.subperm_of_subset f5.search.seenNodup
      intro v hv
      exact List.mem_dedup.2 (List.mem_cons_of_mem _ (f5.search.seenDic v hv))
    rw [← hfifo]
    simp only [List.length_cons, List.length_reverse]
    omega
  · intro m c1 c2 h1 h2
    exact step_push (steps_inv_of_eq (bfsStart_inv hg) h1).1 h2

/-- Claim C18 at start "ab", end "zz" and the dictionary "ab", "ac", "ab". -/
theorem C18_search_terminates_witness :
    ∃ g n c, buildGraph [97, 98] [[97, 98], [97, 99], [97, 98]] = .ok g ∧
      steps [122, 122] n (bfsStart g [97, 98]) = .ok c ∧
      step [122, 122] c = .ok none ∧ c.pending = [] ∧ c.state.queue = [] ∧
      c.dequeued.length ≤
        (([97, 98] : GoString) :: [[97, 98], [97, 99], [97, 98]]).dedup.length + 1 ∧
      WordLadder [97, 98] [122, 122] [[97, 98], [97, 99], [97, 98]] = .ok c.state.min ∧
      (bfsStart g [97, 98]).pushed = [[97, 98]] ∧
      ∀ m c1 c2, steps [122, 122] m (bfsStart g [97, 98]) = .ok c1 →
        step [122, 122] c1 = .ok (some c2) →
        c2.pushed = c1.pushed ∨
          ∃ v, v ∉ c1.state.seen ∧ c2.state.seen = v :: c1.state.seen ∧
            c2.pushed = c1.pushed ++ [v] :=
  C18_search_terminates [97, 98] [122, 122] [[97, 98], [97, 99], [97, 98]] (by decide)

/-- Claim C19: when every word of the dictionary has the length of start,
`WordLadder(start, end, dic)` raises no runtime error for any end. Every index
`b[i]` read by `isDifferentByOneLetter` during the construction is in range; `start`
and every word of the dictionary are keys of the map from line 22 on, so every
`graph[w1]`, `graph[w2]` and `graph[beginWord]` is a vertex; every step of the
search succeeds, and when the front of the queue is read the queue is not empty and
its front is a vertex of the graph. -/
theorem C19_no_runtime_error (start end_ : GoString) (dic : List GoString)
    (hlen : ∀ w ∈ dic, w.length = start.length) :
    (∀ w1, w1 = start ∨ w1 ∈ dic → ∀ w2 ∈ dic,
      (∀ i ∈ rangeIndices w1, i < w2.length) ∧
        ∃ d, isDifferentByOneLetter w1 w2 = .ok d) ∧
    (∀ w, w = start ∨ w ∈ dic → ∃ v, lookupV (makeVertices start dic) w = some v) ∧
    (∃ g, buildGraph start dic = .ok g ∧ (∃ v, lookupV g start = some v) ∧
      ∀ n, ∃ c, steps end_ n (bfsStart g start) = .ok c ∧ (∃ o, step end_ c = .ok o) ∧
        (c.pending = [] → c.state.queue ≠ [] →
          ∃ tmp rest t, c.state.queue = tmp :: rest ∧
            lookupV c.state.graph tmp = some t)) ∧
    ∃ r, WordLadder start end_ dic = .ok r := by
  have hl : ∀ w1, w1 = start ∨ w1 ∈ dic → ∀ w2 ∈ dic, w1.length = w2.length := by
    intro w1 hw1 w2 hw2
    rcases hw1 with e | e
    · rw [e, hlen w2 hw2]
    · rw [hlen w1 e, hlen w2 hw2]
  refine ⟨?_, ?_, ?_, ?_⟩
  · intro w1 hw1 w2 hw2
    refine ⟨?_, isDifferentByOneLetter_total w1 w2 (hl w1 hw1 w2 hw2)⟩
    intro i hi
    rw [← hl w1 hw1 w2 hw2]
    exact rangeIndices_lt w1 i hi
  · intro w hw
    exact ⟨_, lookupV_makeVertices start dic w hw⟩
  · obtain ⟨g, hb, hg⟩ := buildGraph_equal_length start dic hlen
    refine ⟨g, hb, ⟨_, hg.lookup start (Or.inl rfl)⟩, ?_⟩
    intro n
    obtain ⟨c, e1, i1, _, _⟩ := steps_inv n (bfsStart g start)
      (bfsStart_inv hg : ConfigInv start end_ dic _)
    refine ⟨c, e1, ?_, ?_⟩
    · rcases step_inv i1 with ⟨_, _, hd⟩ | ⟨c1, hs, _⟩
      · exact ⟨none, hd⟩
      · exact ⟨some c1, hs⟩
    · intro hp hq
      cases hqe : c.state.queue with
      | nil => exact absurd hqe hq
      | cons tmp rest =>
        have hs := i1.search
        rw [hp] at hs
        obtain ⟨⟨d, hlk⟩, _⟩ := hs.retarget.dequeue hqe
        exact ⟨tmp, rest, _, rfl, hlk⟩
  · obtain ⟨r, hr, _⟩ := WordLadder_reach start end_ dic hlen
    exact ⟨r, hr⟩

/-- Claim C19 at start "é" (bytes C3 A9), end "abc" and the dictionary "ê", "ab". -/
theorem C19_no_runtime_error_witness :
    (∀ w1, w1 = [0xC3, 0xA9] ∨ w1 ∈ ([[0xC3, 0xAA], [97, 98]] : List GoString) →
      ∀ w2 ∈ ([[0xC3, 0xAA], [97, 98]] : List GoString),
      (∀ i ∈ rangeIndices w1, i < w2.length) ∧
        ∃ d, isDifferentByOneLetter w1 w2 = .ok d) ∧
    (∀ w, w = [0xC3, 0xA9] ∨ w ∈ ([[0xC3, 0xAA], [97, 98]] : List GoString) →
      ∃ v, lookupV (makeVertices [0xC3, 0xA9] [[0xC3, 0xAA], [97, 98]]) w = some v) ∧
    (∃ g, buildGraph [0xC3, 0xA9] [[0xC3, 0xAA], [97, 98]] = .ok g ∧
      (∃ v, lookupV g [0xC3, 0xA9] = some v) ∧
      ∀ n, ∃ c, steps [97, 98, 99] n (bfsStart g [0xC3, 0xA9]) = .ok c ∧
        (∃ o, step [97, 98, 99] c = .ok o) ∧
        (c.pending = [] → c.state.queue ≠ [] →
          ∃ tmp rest t, c.state.queue = tmp :: rest ∧
            lookupV c.state.graph tmp = some t)) ∧
    ∃ r, WordLadder [0xC3, 0xA9] [97, 98, 99] [[0xC3, 0xAA], [97, 98]] = .ok r :=
  C19_no_runtime_error [0xC3, 0xA9] [97, 98, 99] [[0xC3, 0xAA], [97, 98]] (by decide)

end GoDsa
